import Mathlib

/-!
Verification of the `articleparser` content-extraction engine.

The development shallowly embeds the parts of `articleparser` (cleaner.py,
extractor.py, metadata.py) that the verified properties are about.  The DOM
is modelled as an inductive tree of element / text / comment nodes, mirroring
`bs4` trees; the side-table annotations `_ld_tc`, `_ld_lc` and `_linkdensity`
written by the Cleaner's memoized scoring pass are modelled by the pure
functions that the memoized computation implements.  Positions of nodes in a
document are modelled as lists of child indices (paths), so that node
identity (`is` in Python) is path equality while `==`/`in` membership tests
of `bs4` (which compare tags structurally) are modelled by value equality of
subtrees.
-/

namespace ArticleParser

/-- A DOM node, mirroring `bs4` page elements: a Tag with a name, an ordered
attribute list and an ordered child list, a NavigableString, or a Comment. -/
inductive Node : Type where
  | elem (name : String) (attrs : List (String × String)) (children : List Node)
  | text (s : String)
  | comment (s : String)

namespace Node

mutual

def hasDecEq : (a b : Node) → Decidable (a = b)
  | .elem n a c, .elem n' a' c' =>
    match decEq n n', decEq a a', hasDecEqList c c' with
    | isTrue h1, isTrue h2, isTrue h3 => isTrue (by rw [h1, h2, h3])
    | isFalse h1, _, _ => isFalse (by intro h; cases h; exact h1 rfl)
    | _, isFalse h2, _ => isFalse (by intro h; cases h; exact h2 rfl)
    | _, _, isFalse h3 => isFalse (by intro h; cases h; exact h3 rfl)
  | .text s, .text s' =>
    match decEq s s' with
    | isTrue h => isTrue (by rw [h])
    | isFalse h => isFalse (by intro hh; cases hh; exact h rfl)
  | .comment s, .comment s' =>
    match decEq s s' with
    | isTrue h => isTrue (by rw [h])
    | isFalse h => isFalse (by intro hh; cases hh; exact h rfl)
  | .elem _ _ _, .text _ => isFalse (by intro h; cases h)
  | .elem _ _ _, .comment _ => isFalse (by intro h; cases h)
  | .text _, .elem _ _ _ => isFalse (by intro h; cases h)
  | .text _, .comment _ => isFalse (by intro h; cases h)
  | .comment _, .elem _ _ _ => isFalse (by intro h; cases h)
  | .comment _, .text _ => isFalse (by intro h; cases h)

def hasDecEqList : (a b : List Node) → Decidable (a = b)
  | [], [] => isTrue rfl
  | [], _ :: _ => isFalse (by intro h; cases h)
  | _ :: _, [] => isFalse (by intro h; cases h)
  | x :: xs, y :: ys =>
    match hasDecEq x y, hasDecEqList xs ys with
    | isTrue h1, isTrue h2 => isTrue (by rw [h1, h2])
    | isFalse h1, _ => isFalse (by intro h; cases h; exact h1 rfl)
    | _, isFalse h2 => isFalse (by intro h; cases h; exact h2 rfl)

end

instance : DecidableEq Node := hasDecEq

/-- Child list of a node; strings and comments have none. -/
def children : Node → List Node
  | .elem _ _ cs => cs
  | _ => []

/-- Whether the node is a Tag (`bs4.element.Tag`). -/
def isElem : Node → Bool
  | .elem _ _ _ => true
  | _ => false

/-- Whether the node is a `bs4.Comment`. -/
def isComment : Node → Bool
  | .comment _ => true
  | _ => false

/-- Attribute list of an element node. -/
def attrsOf : Node → List (String × String)
  | .elem _ a _ => a
  | _ => []

/-- Tag name of an element node, `""` for strings and comments. -/
def nameOf : Node → String
  | .elem n _ _ => n
  | _ => ""

/-- Attribute lookup, `tag.get(key)`: first matching attribute. -/
def getAttr (n : Node) (k : String) : Option String :=
  match n with
  | .elem _ attrs _ => (attrs.find? (fun p => p.1 == k)).map (·.2)
  | _ => none

/-- Whether the node has the given attribute (`key in tag.attrs`). -/
def hasAttr (n : Node) (k : String) : Bool :=
  (n.getAttr k).isSome

end Node

/-! ### String primitives

Python string operations used by the sources, implemented over the character
list of a `String` by structural recursion (so that concrete runs of the
embedded code reduce inside the kernel). -/

/-- Characters stripped by Python's `str.strip()` with no arguments. -/
def isPySpace (c : Char) : Bool :=
  c == ' ' || c == '\t' || c == '\n' || c == '\r' || c == '\x0b' || c == '\x0c'

/-- Python `str.lstrip()`. -/
def pyLStrip (s : String) : String :=
  ⟨s.data.dropWhile isPySpace⟩

/-- Python `str.rstrip()`. -/
def pyRStrip (s : String) : String :=
  ⟨(s.data.reverse.dropWhile isPySpace).reverse⟩

/-- Python `str.strip()`. -/
def pyStrip (s : String) : String :=
  ⟨((s.data.dropWhile isPySpace).reverse.dropWhile isPySpace).reverse⟩

/-- Python `len(s)` (number of code points). -/
def pyLen (s : String) : Nat :=
  s.data.length

/-- Python `s.startswith(p)`. -/
def pyStartsWith (s p : String) : Bool :=
  p.data.isPrefixOf s.data

/-- Python `s.endswith(p)`. -/
def pyEndsWith (s p : String) : Bool :=
  p.data.reverse.isPrefixOf s.data.reverse

/-- Substring occurrence on character lists (Python `needle in hay`). -/
def listContainsSub (hay needle : List Char) : Bool :=
  needle.isPrefixOf hay ||
    match hay with
    | [] => false
    | _ :: t => listContainsSub t needle

/-- Python `needle in hay` for strings. -/
def pyContains (hay needle : String) : Bool :=
  listContainsSub hay.data needle.data

/-- Python `s.lower()` (ASCII case folding suffices for the inputs here). -/
def pyLower (s : String) : String :=
  ⟨s.data.map Char.toLower⟩

/-- Python `s.split(sep)` for a single-character separator. -/
def splitOnChar (sep : Char) (l : List Char) : List (List Char) :=
  match l with
  | [] => [[]]
  | c :: t =>
    let rest := splitOnChar sep t
    if c == sep then [] :: rest
    else match rest with
      | [] => [[c]]
      | r :: rs => (c :: r) :: rs

/-- Python `s.split(sep)` (string version, one-character separators). -/
def pySplitOn (s : String) (sep : Char) : List String :=
  (splitOnChar sep s.data).map (fun l => ⟨l⟩)

/-- Python `s.split()` with no argument: split on whitespace runs, dropping
empty pieces. -/
def pySplitWs (s : String) : List String :=
  ((splitOnChar ' ' (s.data.map (fun c => if isPySpace c then ' ' else c))).map
    (fun l => (⟨l⟩ : String))).filter (fun t => !t.data.isEmpty)

/-- Whether a string is empty or entirely whitespace
(`re.fullmatch(r"\s*", s) is not None`). -/
def isWsString (s : String) : Bool :=
  s.data.all isPySpace

/-! ### Paths and document-order traversal

A position in a document is a list of child indices from the root.  Python
node identity (`is`) is path equality; `bs4` tag equality (`==`, used by
`in` membership tests) is structural equality of the subtree values. -/

/-- A position in the document tree: child indices from the root. -/
abbrev DomPath := List Nat

/-- The node at a path, if the path is valid. -/
def nodeAt : Node → DomPath → Option Node
  | n, [] => some n
  | n, i :: p =>
    match n.children.get? i with
    | some c => nodeAt c p
    | none => none

mutual

/-- Document-order (pre-order) list of the strict descendants of the node at
path `pfx`, paired with their paths: the traversal order of `find_all` /
`select` in `bs4`. -/
def descNode (pfx : DomPath) : Node → List (DomPath × Node)
  | .elem _ _ cs => descList pfx 0 cs
  | _ => []

/-- Descendants contributed by the children `cs.drop i` of the node at
`pfx`, where `i` is the index of the first listed child. -/
def descList (pfx : DomPath) (i : Nat) : List Node → List (DomPath × Node)
  | [] => []
  | c :: cs => (pfx ++ [i], c) :: (descNode (pfx ++ [i]) c ++ descList pfx (i + 1) cs)

end

/-- Strict descendants of the root, in document order. -/
def allNodes (t : Node) : List (DomPath × Node) :=
  descNode [] t

/-- The ancestor nodes of the node at `p` (the node itself excluded), root
first: `reversed(tag.parents)` without the final `None`. -/
def ancestorsOf (t : Node) (p : DomPath) : List Node :=
  match p with
  | [] => []
  | i :: p' =>
    t :: (match t.children.get? i with
          | some c => ancestorsOf c p'
          | none => [])

/-- `self.soup.body`: the first element named `body`, in document order. -/
def firstBody (t : Node) : Option (DomPath × Node) :=
  (allNodes t).find? (fun pn => pn.2.isElem && pn.2.nameOf == "body")

/-- Names of the ancestors of the node at `p`, root first. -/
def ancestorNames (t : Node) (p : DomPath) : List String :=
  (ancestorsOf t p).map Node.nameOf

/-- Whether the node at `p` lies inside an `<a>` subtree (so that the
link-density pass force-set its `_ld_lc`). -/
def inAnchorCtx (t : Node) (p : DomPath) : Bool :=
  (ancestorNames t p).any (fun nm => nm == "a")

/-! ### CSS selectors (the fragment used by the sources)

`soupsieve` selectors used by `set_base_tag`, `extract_*` and the author
scan are compound selectors of a tag name plus attribute conditions
(`[k='v']`, `[k*='v']`, `[k^='v']`, `[k]`), optionally restricted to
descendants of some named ancestor (descendant combinator, e.g.
`head meta[...]`).  A selector group (comma-separated in the source) is a
list of such atoms; `select` returns matching elements in document order. -/

/-- One attribute condition of a compound selector. -/
inductive AttrCond : Type where
  | eqAttr (key val : String)
  | containsAttr (key val : String)
  | startAttr (key val : String)
  | presentAttr (key : String)
  | wordAttr (key val : String)

/-- A compound selector atom: optional tag name, attribute conditions, and an
optional required ancestor tag name (descendant combinator). -/
structure SimpleSel where
  tagName : Option String
  conds : List AttrCond
  underName : Option String := none

/-- Whether one attribute condition holds of a node. -/
def condHolds (n : Node) : AttrCond → Bool
  | .eqAttr k v =>
    match n.getAttr k with
    | some w => w == v
    | none => false
  | .containsAttr k v =>
    match n.getAttr k with
    | some w => pyContains w v
    | none => false
  | .startAttr k v =>
    match n.getAttr k with
    | some w => pyStartsWith w v
    | none => false
  | .presentAttr k => n.hasAttr k
  | .wordAttr k v =>
    match n.getAttr k with
    | some w => (pySplitWs w).any (fun s => s == v)
    | none => false

/-- Whether a node (with the given ancestor names) matches a selector atom. -/
def matchesSel (anc : List String) (n : Node) (sel : SimpleSel) : Bool :=
  n.isElem &&
  (match sel.tagName with
   | some nm => n.nameOf == nm
   | none => true) &&
  sel.conds.all (condHolds n) &&
  (match sel.underName with
   | some a => anc.any (fun x => x == a)
   | none => true)

/-- `container.select(selector-group)`: document-order matches among the
strict descendants of the node at `base` (with `base = []`, of the soup). -/
def selectAll (t : Node) (base : DomPath) (sels : List SimpleSel) : List (DomPath × Node) :=
  match nodeAt t base with
  | none => []
  | some b =>
    (descNode base b).filter
      (fun pn => sels.any (matchesSel (ancestorNames t pn.1) pn.2))

/-- `container.find_all(names)`: document-order element descendants whose tag
name is in `names`. -/
def findAllNames (t : Node) (base : DomPath) (names : List String) : List (DomPath × Node) :=
  match nodeAt t base with
  | none => []
  | some b =>
    (descNode base b).filter (fun pn => pn.2.isElem && names.any (fun nm => pn.2.nameOf == nm))

/-! ### The Cleaner's link-density scoring pass (cleaner.py)

`Cleaner._get_total_chars` computes, for a tag, the sum over its direct
children of the stripped length of string children plus the recursive
`total_chars` of element children, memoized in the `_ld_tc` attribute.
`Cleaner._get_link_chars` computes, for an anchor tag, its own
`total_chars` (force-setting every descendant tag's `_ld_lc` to that
descendant's `total_chars`), and for a non-anchor the sum of `_ld_lc`
over direct child tags.  The pure functions below compute exactly the
values cached by the memoized pass; `linkChars` takes a flag recording
whether the node lies inside an anchor (in which case its cached `_ld_lc`
was force-set to its `total_chars`). -/

mutual

/-- Value of the `_ld_tc` annotation (`Cleaner._get_total_chars`): for a
string or comment child, the length of the stripped string (a `bs4.Comment`
is a `NavigableString`, so its text is counted too); for a tag, the sum over
its direct children. -/
def totalChars : Node → Nat
  | .text s => pyLen (pyStrip s)
  | .comment s => pyLen (pyStrip s)
  | .elem _ _ cs => totalCharsList cs

/-- Sum of `totalChars` over a child list. -/
def totalCharsList : List Node → Nat
  | [] => 0
  | c :: cs => totalChars c + totalCharsList cs

end

mutual

/-- Value of the `_ld_lc` annotation (`Cleaner._get_link_chars`): `inAnchor`
records whether the node lies inside an `<a>` subtree, whose descendants all
have `_ld_lc` force-set to their own `_ld_tc`. Strings and comments carry no
annotation and contribute zero to their parent's sum (the code sums over
direct child tags only). -/
def linkChars (inAnchor : Bool) : Node → Nat
  | .text _ => 0
  | .comment _ => 0
  | .elem nm _ cs =>
    if inAnchor || nm == "a" then totalCharsList cs
    else linkCharsList cs

/-- Sum of `linkChars false` over a child list (children of a non-anchor
tag that is not inside an anchor). -/
def linkCharsList : List Node → Nat
  | [] => 0
  | c :: cs => linkChars false c + linkCharsList cs

end

/-- Value of the `_linkdensity` annotation (`Cleaner._get_linkdensity`):
`link_chars / total_chars` as an exact ratio (the implementation uses a
Python float), or `0.0` when `total_chars` is zero. -/
def linkDensity (inAnchor : Bool) (n : Node) : ℚ :=
  if totalChars n > 0 then (linkChars inAnchor n : ℚ) / (totalChars n : ℚ) else 0

/-- The cached `_linkdensity` of the node at path `p` of document `t`. -/
def densityAt (t : Node) (p : DomPath) : ℚ :=
  match nodeAt t p with
  | some n => linkDensity (inAnchorCtx t p) n
  | none => 0

/-! ### Python-level errors

Exceptions that the embedded code can raise; fallible routines return
`Except PyErr`. -/

inductive PyErr : Type where
  | valueError
  | zeroDivisionError
  | attributeError
  | typeError
  | keyError
  | indexError
  | assertionError
  | nameError
  | fuelExhausted
deriving DecidableEq, Repr

/-! ### The Cleaner's tree-mutation passes (cleaner.py)

Static tag tables transcribed from settings.py, and the cleaning passes.
Each pass is modelled as a pure tree transformation (fallible passes return
`Except PyErr`). -/

/-- `settings.SECTIONING_TAGS`. -/
def SECTIONING_TAGS : List String :=
  ["article", "aside", "nav", "section"]

/-- `settings.IMAGE_AND_MULTIMEDIA_TAGS`. -/
def IMAGE_AND_MULTIMEDIA_TAGS : List String :=
  ["area", "audio", "img", "map", "track", "video"]

/-- `settings.EMBEDDED_CONTENT_TAGS`. -/
def EMBEDDED_CONTENT_TAGS : List String :=
  ["embed", "iframe", "object", "param", "picture", "source"]

/-- `settings.DECOMPOSE_TAGS`. -/
def DECOMPOSE_TAGS : List String :=
  ["style", "aside", "nav", "canvas", "noscript", "script",
   "caption", "col", "colgroup", "table", "tbody", "td", "tfoot", "th",
   "thead", "tr",
   "button", "datalist", "fieldset", "input", "label", "legend", "meter",
   "optgroup", "option", "output", "progress", "select", "textarea",
   "details", "dialog", "menu", "summary", "slot", "template"]

/-- `settings.MARKUP_TAGS`. -/
def MARKUP_TAGS : List String :=
  ["abbr", "b", "bdi", "bdo", "cite", "code", "data", "dfn", "em", "i",
   "kbd", "mark", "q", "rb", "rp", "rt", "rtc", "ruby", "s", "samp",
   "small", "strong", "sub", "sup", "u", "var", "del", "ins"]

mutual

/-- `Cleaner.decompose_tags`: every element whose name is in
`decompose_tags` is removed together with its subtree (the `find_all`
snapshot contains all matching descendants, and decomposing an element
that sits inside an already decomposed one has no further effect). -/
def decomposeTags (names : List String) : Node → Node
  | .elem nm a cs => .elem nm a (decomposeTagsList names cs)
  | n => n

/-- Child-list worker of `decomposeTags`. -/
def decomposeTagsList (names : List String) : List Node → List Node
  | [] => []
  | c :: cs =>
    if c.isElem && names.any (fun x => x == c.nameOf) then decomposeTagsList names cs
    else decomposeTags names c :: decomposeTagsList names cs

end

mutual

/-- `Cleaner.decompose_comments`: every `bs4.Comment` node is extracted. -/
def decomposeComments : Node → Node
  | .elem nm a cs => .elem nm a (decomposeCommentsList cs)
  | n => n

/-- Child-list worker of `decomposeComments`. -/
def decomposeCommentsList : List Node → List Node
  | [] => []
  | c :: cs =>
    if c.isComment then decomposeCommentsList cs
    else decomposeComments c :: decomposeCommentsList cs

end

/-- Association-list update with Python `dict` semantics
(`d[k] = v`: overwrite in place, else append). -/
def dictSet (d : List (String × String)) (k v : String) : List (String × String) :=
  if d.any (fun p => p.1 == k) then
    d.map (fun p => if p.1 == k then (k, v) else p)
  else d ++ [(k, v)]

/-- Python `d.get(k)`. -/
def dictGet (d : List (String × String)) (k : String) : Option String :=
  (d.find? (fun p => p.1 == k)).map (·.2)

/-- Split a character list at the first occurrence of `sep`
(Python `s.split(sep, maxsplit=1)` when it yields two pieces). -/
def splitOnceChar (sep : Char) : List Char → Option (List Char × List Char)
  | [] => none
  | c :: t =>
    if c == sep then some ([], t)
    else (splitOnceChar sep t).map (fun p => (c :: p.1, p.2))

/-- Worker for `Cleaner._parse_style_string`: iterate over the `;`-separated
pieces, stopping at the first empty piece (the `break`), asserting that no
piece contains a brace, and recording `k: v` pairs (pieces without a colon
are skipped by the bare `except`). -/
def parseStyleGo : List String → List (String × String) → Except PyErr (List (String × String))
  | [], acc => .ok acc
  | kv :: rest, acc =>
    let kv := pyStrip kv
    if kv == "" then .ok acc
    else if pyContains kv "\x7b" || pyContains kv "\x7d" then .error .assertionError
    else
      match splitOnceChar ':' kv.data with
      | some (k, v) => parseStyleGo rest (dictSet acc (pyStrip ⟨k⟩) (pyStrip ⟨v⟩))
      | none => parseStyleGo rest acc

/-- `Cleaner._parse_style_string` (the `;`-in-piece assertion can never fire
after splitting on `;`; the brace assertions can). -/
def parseStyleString (s : String) : Except PyErr (List (String × String)) :=
  parseStyleGo (pySplitOn s ';') []

/-- Regex `r"none(\s!important)?"` (full match), also used for
`hidden(\s!important)?`. -/
def matchWordOptImportant (word s : String) : Bool :=
  s == word ||
    (pyStartsWith s word &&
      match s.data.drop word.data.length with
      | c :: rest => isPySpace c && (⟨rest⟩ : String) == "!important"
      | [] => false)

/-- Optional `(\s!important)?` tail. -/
def matchOptImportantTail : List Char → Bool
  | [] => true
  | c :: rest => isPySpace c && (⟨rest⟩ : String) == "!important"

/-- Regex `HTML_SMALL_LENGTHS = r"(0|1)(px)?(\s!important)?"` (full match). -/
def matchSmallLength (s : String) : Bool :=
  match s.data with
  | c :: rest =>
    (c == '0' || c == '1') &&
      (match rest with
       | 'p' :: 'x' :: rest2 => matchOptImportantTail rest2
       | r => matchOptImportantTail r)
  | [] => false

/-- `Cleaner._is_cssvis_invisible`, including the `AssertionError` that
`_parse_style_string` can raise on a style value containing a brace.
The walrus-guarded `elif` chains are mirrored exactly: a present-but-failing
earlier property short-circuits the later ones. -/
def isCssvisInvisible (n : Node) : Except PyErr Bool :=
  if n.hasAttr "hidden" then .ok true
  else
    match n.getAttr "style" with
    | some styleString =>
      match parseStyleString styleString with
      | .error e => .error e
      | .ok styleDict =>
        let fromStyle : Bool :=
          match truthy (dictGet styleDict "display") with
          | some d => matchWordOptImportant "none" d
          | none => styleFallback styleDict
        if fromStyle then .ok true else .ok (attrFallback n)
    | none => .ok (attrFallback n)
where
  /-- Python truthiness of an optional string: `None` and `""` are falsy. -/
  truthy (o : Option String) : Option String :=
    match o with
    | some s => if s == "" then none else some s
    | none => none
  /-- The `visibility` / `width` / `height` / `opacity` arms of the style
  `elif` chain (reached only when `display` is absent or falsy). -/
  styleFallback (styleDict : List (String × String)) : Bool :=
    match truthy (dictGet styleDict "visibility") with
    | some v => matchWordOptImportant "hidden" v
    | none =>
      match truthy (dictGet styleDict "width") with
      | some w => matchSmallLength w
      | none =>
        match truthy (dictGet styleDict "height") with
        | some h => matchSmallLength h
        | none =>
          dictGet styleDict "opacity" == some "0" ||
            dictGet styleDict "opacity" == some "0 !important"
  /-- The trailing `width` / `height` / `role` attribute checks. -/
  attrFallback (n : Node) : Bool :=
    match truthy (n.getAttr "width") with
    | some w => matchSmallLength w
    | none =>
      match truthy (n.getAttr "height") with
      | some h => matchSmallLength h
      | none =>
        n.getAttr "role" == some "presentation" || n.getAttr "role" == some "none"

mutual

/-- Number of nodes of a subtree (used as loop fuel bounds). -/
def Node.size : Node → Nat
  | .elem _ _ cs => 1 + Node.sizeList cs
  | _ => 1

/-- Total node count of a forest. -/
def Node.sizeList : List Node → Nat
  | [] => 0
  | c :: cs => Node.size c + Node.sizeList cs

end

/-- A breadth-first queue entry of `decompose_header_footer`: the node's
path, the names of its ancestors (`set(p.name for p in element.parents)` is
a membership test over these), and the node itself. -/
abbrev QEntry := DomPath × List String × Node

/-- Queue entries for the children `cs` (numbered from `i`) of the element
at path `p` with ancestor names `anc` and name `nm`. -/
def childEntriesFrom (p : DomPath) (anc : List String) (nm : String) (i : Nat) :
    List Node → List QEntry
  | [] => []
  | c :: cs => (p ++ [i], anc ++ [nm], c) :: childEntriesFrom p anc nm (i + 1) cs

/-- Queue entries for the children of the element at path `p` with ancestor
names `anc` and name `nm`. -/
def childEntries (p : DomPath) (anc : List String) (nm : String) (cs : List Node) :
    List QEntry :=
  childEntriesFrom p anc nm 0 cs

/-- Whether the node at path `p` is an element with the given name. -/
def nameAtIs (t : Node) (p : DomPath) (nm : String) : Bool :=
  match nodeAt t p with
  | some n => n.isElem && n.nameOf == nm
  | none => false

/-- A queue entry is well formed for document `t` when its node really sits
at its path and its ancestor-name list is that path's. -/
def entryWF (t : Node) (e : QEntry) : Prop :=
  nodeAt t e.1 = some e.2.2 ∧ e.2.1 = ancestorNames t e.1

/-- All entries of a queue are well formed. -/
def queueWF (t : Node) (q : List QEntry) : Prop :=
  ∀ e ∈ q, entryWF t e

/-- Whether an ancestor-name list has no name in `SECTIONING_TAGS`
(`all(x not in parent_set for x in SECTIONING_TAGS)`). -/
def sectioningFree (anc : List String) : Bool :=
  SECTIONING_TAGS.all (fun x => !(anc.any (fun y => y == x)))

/-- Total node count carried by a queue. -/
def queueSize (q : List QEntry) : Nat :=
  (q.map (fun e => Node.size e.2.2)).sum

/-- The breadth-first loop of `Cleaner.decompose_header_footer`, returning
the paths of the decomposed elements.  The loop runs while the queue is
nonempty and one of the two flags is unset; the first header (footer)
encountered sets its flag, and is decomposed — skipping its children —
exactly when its ancestor-name set avoids `SECTIONING_TAGS`.  `fuel` bounds
the number of iterations; each iteration pops one entry and enqueues nodes
of strictly smaller total size, so any `fuel > queueSize q` is enough and
the zero-fuel branch is unreachable from `decomposeHeaderFooterPaths`. -/
def hfLoop : Nat → List QEntry → Bool → Bool → List DomPath → List DomPath
  | 0, _, _, _, removed => removed
  | fuel + 1, q, hFound, fFound, removed =>
    match q with
    | [] => removed
    | (p, anc, n) :: rest =>
      if hFound && fFound then removed
      else
        match n with
        | .elem nm _ cs =>
          if !hFound && nm == "header" then
            if sectioningFree anc then
              hfLoop fuel rest true fFound (removed ++ [p])
            else
              hfLoop fuel (rest ++ childEntries p anc nm cs) true fFound removed
          else if !fFound && nm == "footer" then
            if sectioningFree anc then
              hfLoop fuel rest hFound true (removed ++ [p])
            else
              hfLoop fuel (rest ++ childEntries p anc nm cs) hFound true removed
          else
            hfLoop fuel (rest ++ childEntries p anc nm cs) hFound fFound removed
        | _ => hfLoop fuel rest hFound fFound removed

/-- Paths decomposed by `Cleaner.decompose_header_footer` on document `t`. -/
def decomposeHeaderFooterPaths (t : Node) : List DomPath :=
  hfLoop (Node.size t + 1) [([], [], t)] false false []

mutual

/-- Remove from the tree the nodes whose root-relative paths are listed in
`ps` (`cur` is the path of the current node). -/
def removePathsNode (ps : List DomPath) (cur : DomPath) : Node → Node
  | .elem nm a cs => .elem nm a (removePathsList ps cur 0 cs)
  | n => n

/-- Child-list worker of `removePathsNode`; `i` is the index of the first
listed child. -/
def removePathsList (ps : List DomPath) (cur : DomPath) (i : Nat) : List Node → List Node
  | [] => []
  | c :: cs =>
    if ps.any (fun q => q == cur ++ [i]) then removePathsList ps cur (i + 1) cs
    else removePathsNode ps (cur ++ [i]) c :: removePathsList ps cur (i + 1) cs

end

/-- `Cleaner.decompose_header_footer`: decompose the elements found by the
breadth-first loop (the decomposed paths are never nested in one another,
since a decomposed element's children are not enqueued). -/
def decomposeHeaderFooter (t : Node) : Node :=
  removePathsNode (decomposeHeaderFooterPaths t) [] t

/-- Breadth-first search for the first element named `header` or `footer`,
over the same queue traversal as `hfLoop` but with no decomposition: the
declarative "breadth-first-first header-or-footer" of the document. -/
def bfsFindHF : Nat → List QEntry → Option (DomPath × List String × String)
  | 0, _ => none
  | fuel + 1, q =>
    match q with
    | [] => none
    | (p, anc, n) :: rest =>
      match n with
      | .elem nm _ cs =>
        if nm == "header" || nm == "footer" then some (p, anc, nm)
        else bfsFindHF fuel (rest ++ childEntries p anc nm cs)
      | _ => bfsFindHF fuel rest

/-- The breadth-first-first header-or-footer element of a document. -/
def firstHeaderFooter (t : Node) : Option (DomPath × List String × String) :=
  bfsFindHF (Node.size t + 1) [([], [], t)]

mutual

/-- `Cleaner.clear_invisible(tag)`: iterate over `tag.contents`, decomposing
invisible element children and recursing into visible ones.  Decomposing
during iteration makes Python's list iterator skip the sibling immediately
following a removed child: that sibling is kept entirely unprocessed, as
here. -/
def clearInvisNode : Node → Except PyErr Node
  | .elem nm a cs =>
    match clearInvisList cs with
    | .error e => .error e
    | .ok cs' => .ok (.elem nm a cs')
  | n => .ok n

/-- Contents iteration of `clear_invisible`, with the removal skip. -/
def clearInvisList : List Node → Except PyErr (List Node)
  | [] => .ok []
  | c :: rest =>
    if c.isElem then
      match isCssvisInvisible c with
      | .error e => .error e
      | .ok true =>
        match rest with
        | [] => .ok []
        | d :: rest2 =>
          match clearInvisList rest2 with
          | .error e => .error e
          | .ok l => .ok (d :: l)
      | .ok false =>
        match clearInvisNode c with
        | .error e => .error e
        | .ok c' =>
          match clearInvisList rest with
          | .error e => .error e
          | .ok l => .ok (c' :: l)
    else
      match clearInvisList rest with
      | .error e => .error e
      | .ok l => .ok (c :: l)

end

/-- One tag's contents pass of `Cleaner.remove_whitespace`: fully-whitespace
`NavigableString`s (comments included — `bs4.Comment` is a
`NavigableString`) are extracted, which makes the iterator skip the next
sibling; other `NavigableString`s are replaced by their stripped plain
string (turning a non-whitespace comment into a text node). -/
def rwList : List Node → List Node
  | [] => []
  | n :: rest =>
    match n with
    | .text s =>
      if isWsString s then
        match rest with
        | [] => []
        | d :: rest2 => d :: rwList rest2
      else .text (pyStrip s) :: rwList rest
    | .comment s =>
      if isWsString s then
        match rest with
        | [] => []
        | d :: rest2 => d :: rwList rest2
      else .text (pyStrip s) :: rwList rest
    | e => e :: rwList rest

mutual

/-- `remove_whitespace` restricted to one tag and its descendants.  The
string-level pass `rwList` touches only this tag's direct string children
and treats element children as opaque, so processing descendants first and
the current contents after is the same tree as Python's outer pre-order
`find_all(True)` loop produces. -/
def removeWhitespaceTag : Node → Node
  | .elem nm a cs => .elem nm a (rwList (removeWhitespaceList cs))
  | n => n

/-- Recurse `removeWhitespaceTag` over a (already string-processed) child
list. -/
def removeWhitespaceList : List Node → List Node
  | [] => []
  | c :: cs => removeWhitespaceTag c :: removeWhitespaceList cs

end

/-- `Cleaner.remove_whitespace`: the `find_all(True)` loop processes the
contents of every descendant tag (the soup's own top-level strings are not
touched, since the soup object itself is not among its descendants). -/
def removeWhitespace : Node → Node
  | .elem nm a cs => .elem nm a (removeWhitespaceList cs)
  | n => n

mutual

/-- `Cleaner.unwrap_tags(unwrap_tags, adjust_spacing=False)` (as invoked by
`clean()`): every element named in `unwrap_tags` — the `find_all` snapshot
includes nested occurrences — is replaced by its children. -/
def unwrapTags (names : List String) : Node → Node
  | .elem nm a cs => .elem nm a (unwrapList names cs)
  | n => n

/-- Child-list worker of `unwrapTags`: unwrapping inside-out (every nested
occurrence is in the `find_all` snapshot, so the net effect is the same). -/
def unwrapList (names : List String) : List Node → List Node
  | [] => []
  | c :: cs =>
    if c.isElem && names.any (fun x => x == c.nameOf) then
      (unwrapTags names c).children ++ unwrapList names cs
    else unwrapTags names c :: unwrapList names cs

end

mutual

/-- `soup.smooth()`: adjacent plain `NavigableString` siblings are merged
(comments are not plain strings and are left alone), recursively. -/
def smoothNode : Node → Node
  | .elem nm a cs => .elem nm a (smoothList cs)
  | n => n

/-- Child-list worker of `smoothNode`. -/
def smoothList : List Node → List Node
  | [] => []
  | .text a :: rest =>
    match smoothList rest with
    | .text b :: r2 => .text (a ++ b) :: r2
    | r => .text a :: r
  | c :: rest => smoothNode c :: smoothList rest

end

/-- The `is_empty` predicate of `Cleaner._decompose_empty`: zero `_ld_tc`,
no image/embedded-media descendant, and not itself an image/media element. -/
def isEmptyTag (n : Node) : Bool :=
  totalChars n == 0 &&
  ((descNode [] n).filter (fun pn =>
      pn.2.isElem &&
      (IMAGE_AND_MULTIMEDIA_TAGS ++ EMBEDDED_CONTENT_TAGS).any
        (fun x => x == pn.2.nameOf))).isEmpty &&
  !(IMAGE_AND_MULTIMEDIA_TAGS ++ EMBEDDED_CONTENT_TAGS).any
      (fun x => x == n.nameOf)

mutual

/-- `Cleaner._decompose_empty`: decompose every descendant tag satisfying
`is_empty` (evaluated against the original tree, as the `find_all` snapshot
does). -/
def decomposeEmpty : Node → Node
  | .elem nm a cs => .elem nm a (decomposeEmptyList cs)
  | n => n

/-- Child-list worker of `decomposeEmpty`. -/
def decomposeEmptyList : List Node → List Node
  | [] => []
  | c :: cs =>
    if c.isElem && isEmptyTag c then decomposeEmptyList cs
    else decomposeEmpty c :: decomposeEmptyList cs

end

mutual

/-- Whether a node is or contains a `<br>` element. -/
def hasBr : Node → Bool
  | .elem nm _ cs => nm == "br" || hasBrList cs
  | _ => false

/-- Whether a forest contains a `<br>` element anywhere. -/
def hasBrList : List Node → Bool
  | [] => false
  | c :: cs => hasBr c || hasBrList cs

end

/-- `Cleaner._is_nonwhitespace_nstring`: a `NavigableString` (comments
included) that is nonempty and not fully whitespace. -/
def isNonWsTextNode : Node → Bool
  | .text s => !isWsString s
  | .comment s => !isWsString s
  | _ => false

/-- Result of handling the pre-order-first `<br>` inside a child list: no
`<br>` present, the list with the `<br>` dealt with in place, or a request
that the caller split the parent into the two given halves. -/
inductive RbRes : Type where
  | noBr
  | replaced (cs : List Node)
  | splitMe (lcs rcs : List Node)

mutual

/-- Handle the pre-order-first `<br>` strictly inside a node (the node
itself is not a `<br>`, which its caller checks first). -/
def rbScanNode : Node → RbRes
  | .elem _ _ cc => rbScanList [] cc
  | _ => .noBr

/-- One iteration of `Cleaner.replace_breaks` below a node: find the
pre-order-first `<br>` in the scanned child list (`done` holds the already
scanned siblings, nearest first).  A `<br>` whose immediate siblings are
both non-whitespace strings asks the caller to split the parent (the left
copy keeps the left contents, the right copy the right contents and loses a
truthy `id`); any other `<br>` is deleted alone. -/
def rbScanList (done : List Node) : List Node → RbRes
  | [] => .noBr
  | c :: rest =>
    if c.isElem && c.nameOf == "br" then
      if (match done with | d :: _ => isNonWsTextNode d | [] => false) &&
         (match rest with | r :: _ => isNonWsTextNode r | [] => false) then
        .splitMe done.reverse rest
      else
        .replaced (done.reverse ++ rest)
    else
      match rbScanNode c with
      | .splitMe lcs rcs =>
        .replaced (done.reverse ++
          [Node.elem c.nameOf c.attrsOf lcs,
           Node.elem c.nameOf
             (if (dictGet c.attrsOf "id").getD "" != "" then
                c.attrsOf.filter (fun p => p.1 != "id")
              else c.attrsOf) rcs] ++ rest)
      | .replaced cc' => .replaced (done.reverse ++ [Node.elem c.nameOf c.attrsOf cc'] ++ rest)
      | .noBr => rbScanList (c :: done) rest

end

/-- One iteration of `replace_breaks` at the root: a split whose parent is
the soup itself raises `ValueError` (`insert_before` on the soup object);
`none` means no `<br>` remains. -/
def rbStepTop (t : Node) : Option (Except PyErr Node) :=
  match t with
  | .elem nm a cs =>
    match rbScanList [] cs with
    | .splitMe _ _ => some (.error .valueError)
    | .replaced cs' => some (.ok (.elem nm a cs'))
    | .noBr => none
  | _ => none

/-- The `while True` loop of `Cleaner.replace_breaks`; each iteration
removes exactly one `<br>`, so any fuel above the node count suffices and
the `fuelExhausted` branch is unreachable from `replaceBreaks`. -/
def replaceBreaksLoop : Nat → Node → Except PyErr Node
  | 0, _ => .error .fuelExhausted
  | fuel + 1, t =>
    match rbStepTop t with
    | none => .ok t
    | some (.error e) => .error e
    | some (.ok t') => replaceBreaksLoop fuel t'

/-- `Cleaner.replace_breaks`. -/
def replaceBreaks (t : Node) : Except PyErr Node :=
  replaceBreaksLoop (Node.size t + 1) t

mutual

/-- Replace the subtree at a path. -/
def replaceAt : Node → DomPath → Node → Node
  | _, [], r => r
  | .elem nm a cs, i :: p, r => .elem nm a (replaceAtIdx cs i p r)
  | n, _ :: _, _ => n

/-- Child-list worker of `replaceAt`. -/
def replaceAtIdx : List Node → Nat → DomPath → Node → List Node
  | [], _, _, _ => []
  | c :: cs, 0, p, r => replaceAt c p r :: cs
  | c :: cs, i + 1, p, r => c :: replaceAtIdx cs i p r

end

/-- `Cleaner.clean()` under the default `Config` (all stages enabled, the
default tag tables): decompose configured tags, comments and the main
header/footer; clear invisible elements below `soup.body` (`AttributeError`
when there is no body); `smooth`; remove whitespace; replace breaks; unwrap
markup tags; `smooth`; run the link-density pass, whose only tree mutation
is `_decompose_empty`; `smooth`. -/
def clean (t : Node) : Except PyErr Node :=
  let t1 := decomposeTags DECOMPOSE_TAGS t
  let t2 := decomposeComments t1
  let t3 := decomposeHeaderFooter t2
  match firstBody t3 with
  | none => .error .attributeError
  | some (bp, bn) =>
    match clearInvisNode bn with
    | .error e => .error e
    | .ok bn' =>
      let t4 := replaceAt t3 bp bn'
      let t5 := smoothNode t4
      let t6 := removeWhitespace t5
      match replaceBreaks t6 with
      | .error e => .error e
      | .ok t7 =>
        let t8 := unwrapTags MARKUP_TAGS t7
        let t9 := smoothNode t8
        let t10 := decomposeEmpty t9
        .ok (smoothNode t10)

/-! ### External collaborators (util.py wrappers around third-party code)

`validate_url` and `parse_dt_str` live in util.py but delegate to django's
`URLValidator` and `dateutil.parser`; both third-party behaviours are
modelled from the spec's collaborator contracts. -/

/-- Modelled from the spec: the absolute-URL validator collaborator
(util.validate_url wrapping django's URLValidator, whose default schemes
are http, https, ftp, ftps): accepts an absolute URL with a scheme from
that list and a nonempty host; `None` and relative strings are rejected. -/
def hostAfter (s p : String) : Bool :=
  pyStartsWith s p &&
    (match s.data.drop p.data.length with
     | [] => false
     | c :: _ => !(c == '/' || c == '?' || c == '#'))

/-- `util.validate_url`. -/
def validate_url : Option String → Bool
  | none => false
  | some s =>
    hostAfter s "http://" || hostAfter s "https://" ||
    hostAfter s "ftp://" || hostAfter s "ftps://"

/-- Modelled from the spec: the lenient date-string parser collaborator
(util.parse_dt_str wrapping dateutil): an ISO-like string (four digits and
a dash) is returned as its own ISO form; other strings fail to `None`, as
does `None` itself (the `TypeError` is caught). -/
def parse_dt_str : Option String → Option String
  | none => none
  | some s =>
    match s.data with
    | a :: b :: c :: d :: '-' :: _ =>
      if a.isDigit && b.isDigit && c.isDigit && d.isDigit then some s else none
    | _ => none

/-- Characters allowed in a URL scheme after the leading letter. -/
def isSchemeChar (c : Char) : Bool :=
  c.isAlphanum || c == '+' || c == '-' || c == '.'

/-- Whether the remainder of a scheme followed by a colon starts the list. -/
def splitSchemeGo : List Char → Bool
  | [] => false
  | c :: cs => if c == ':' then true else if isSchemeChar c then splitSchemeGo cs else false

/-- Whether a string carries its own scheme (`letter`, scheme chars, `:`). -/
def hasScheme (s : String) : Bool :=
  match s.data with
  | c :: cs => c.isAlpha && splitSchemeGo (c :: cs)
  | [] => false

/-- Characters before the first colon. -/
def upToColon : List Char → List Char
  | [] => []
  | c :: cs => if c == ':' then [] else c :: upToColon cs

/-- Characters after the first colon. -/
def afterColon : List Char → List Char
  | [] => []
  | c :: cs => if c == ':' then cs else afterColon cs

/-- A path truncated after its last slash. -/
def dirOf (l : List Char) : List Char :=
  (l.reverse.dropWhile (fun c => c != '/')).reverse

/-- A path truncated after its last slash, or a lone slash when it has
none (the joining point right after the authority). -/
def pathDir (l : List Char) : List Char :=
  if (dirOf l).isEmpty then ['/'] else dirOf l

/-- The scheme-independent part of `urljoin`: `pre` is the base's
`scheme:` prefix (or nothing), `rest` what follows it. -/
def urljoinCore (pre rest : List Char) (url : String) : String :=
  match rest with
  | '/' :: '/' :: r =>
    if pyStartsWith url "/" then
      String.mk (pre ++ '/' :: '/' :: r.takeWhile (fun c => c != '/')) ++ url
    else
      String.mk (pre ++ '/' :: '/' :: r.takeWhile (fun c => c != '/') ++
        pathDir (r.dropWhile (fun c => c != '/'))) ++ url
  | _ =>
    if pyStartsWith url "/" then String.mk pre ++ url
    else String.mk (pre ++ dirOf rest) ++ url

/-- Modelled from the spec: `urllib.parse.urljoin(base, url)` on the shapes
arising here.  An empty argument yields the other; a `url` with its own
scheme stands alone; `//host/...` adopts the base's scheme; `/path`
replaces the base's path; any other `url` replaces everything after the
last slash of the base's path (or is appended at the host when the path is
empty). -/
def urljoin (base url : String) : String :=
  if pyLen base = 0 then url
  else if pyLen url = 0 then base
  else if hasScheme url then url
  else if pyStartsWith url "//" then
    if hasScheme base then String.mk (upToColon base.data) ++ ":" ++ url else url
  else if hasScheme base then
    urljoinCore (upToColon base.data ++ [':']) (afterColon base.data) url
  else urljoinCore [] base.data url

/-! ### JSON-LD metadata extraction (metadata.py)

JSON values as parsed by `json.loads`, and the script blocks fed to
`extract_json_ld`: a block's `tag.string` can be `None` (`json.loads(None)`
raises an uncaught `TypeError`), fail to parse (`JSONDecodeError`, caught
and skipped), or yield a JSON value. -/

inductive Json : Type where
  | null
  | bool (b : Bool)
  | num (n : Int)
  | str (s : String)
  | arr (items : List Json)
  | obj (fields : List (String × Json))

/-- One `<script type="application/ld+json">` block as seen by
`extract_json_ld_dictlist`. -/
inductive ScriptBlock : Type where
  | noString
  | malformed
  | parsed (j : Json)

/-- Python `d.get(k)` on a JSON object's field list. -/
def jGet (fields : List (String × Json)) (k : String) : Option Json :=
  (fields.find? (fun p => p.1 == k)).map (·.2)

/-- Python `k in d` on a JSON object's field list. -/
def jHasKey (fields : List (String × Json)) (k : String) : Bool :=
  fields.any (fun p => p.1 == k)

/-- Whether a JSON value is the given string (for `in` on JSON lists). -/
def isStrEq (s : String) : Json → Bool
  | .str v => v == s
  | _ => false

/-- First phase of `extract_json_ld_dictlist`: parse each block, skipping
`JSONDecodeError`s, extending with list contents and appending dicts; a
block whose `tag.string` is `None` raises `TypeError` out of `json.loads`
(not caught); other JSON values are logged and dropped. -/
def collectGraphItems : List ScriptBlock → Except PyErr (List Json)
  | [] => .ok []
  | b :: rest =>
    match b with
    | .noString => .error .typeError
    | .malformed => collectGraphItems rest
    | .parsed j =>
      match j with
      | .arr items =>
        match collectGraphItems rest with
        | .error e => .error e
        | .ok l => .ok (items ++ l)
      | .obj f =>
        match collectGraphItems rest with
        | .error e => .error e
        | .ok l => .ok (.obj f :: l)
      | _ => collectGraphItems rest

/-- `item["@context"] = context` for one `@graph` member: a dict gains the
context when it lacks one; a string or list containing `"@context"` is
appended unchanged, while other values raise `TypeError` (either at the
`in` test or at the assignment). -/
def graphItemAdd (context : Json) : Json → Except PyErr Json
  | .obj f =>
    .ok (.obj (if jHasKey f "@context" then f else f ++ [("@context", context)]))
  | .str s => if pyContains s "@context" then .ok (.str s) else .error .typeError
  | .arr items =>
    if items.any (isStrEq "@context") then .ok (.arr items) else .error .typeError
  | _ => .error .typeError

/-- `graphItemAdd` over the members of a `@graph` list, in order. -/
def graphItemsAdd (context : Json) : List Json → Except PyErr (List Json)
  | [] => .ok []
  | item :: rest =>
    match graphItemAdd context item with
    | .error e => .error e
    | .ok item' =>
      match graphItemsAdd context rest with
      | .error e => .error e
      | .ok l => .ok (item' :: l)

/-- Second phase of `extract_json_ld_dictlist`: flatten `@graph`
containers.  `"@graph" in dictitem` raises `TypeError` on numbers, booleans
and `null`; on a string it is a substring test and on a list a membership
test, and a hit then raises `TypeError` at the indexing.  A dict with
`@graph` reads `dictitem["@context"]` unconditionally — `KeyError` when the
context is missing; a non-list `@graph` value is logged and contributes
nothing. -/
def flattenGraphs : List Json → Except PyErr (List Json)
  | [] => .ok []
  | d :: rest =>
    match d with
    | .obj fields =>
      if jHasKey fields "@graph" then
        match jGet fields "@context" with
        | none => .error .keyError
        | some context =>
          match jGet fields "@graph" with
          | some (.arr items) =>
            match graphItemsAdd context items with
            | .error e => .error e
            | .ok items' =>
              match flattenGraphs rest with
              | .error e => .error e
              | .ok l => .ok (items' ++ l)
          | _ => flattenGraphs rest
      else
        match flattenGraphs rest with
        | .error e => .error e
        | .ok l => .ok (.obj fields :: l)
    | .str s =>
      if pyContains s "@graph" then .error .typeError
      else
        match flattenGraphs rest with
        | .error e => .error e
        | .ok l => .ok (.str s :: l)
    | .arr items =>
      if items.any (isStrEq "@graph") then .error .typeError
      else
        match flattenGraphs rest with
        | .error e => .error e
        | .ok l => .ok (.arr items :: l)
    | _ => .error .typeError

/-- `metadata.extract_json_ld_dictlist`. -/
def extract_json_ld_dictlist (blocks : List ScriptBlock) : Except PyErr (List Json) :=
  match collectGraphItems blocks with
  | .error e => .error e
  | .ok graphItems => flattenGraphs graphItems

/-- An author/publisher record of the JSON-LD metadata: a nonempty name,
and a `url` that is `None`, a validated string, or (faithful to the code's
guard, which leaves non-string values untouched) any other JSON value. -/
structure JsonLdAuthor where
  name : String
  url : Option Json

/-- The dict built by `extract_json_ld`.  Scalar fields distinguish "key
absent" (`none`) from "key present" (`some v`, where `v` can itself be
`None` — e.g. an unparseable date is stored as `None` and then blocks later
categories, because the `prop not in metadata_json_ld` guard sees the key). -/
structure JsonLdMeta where
  headline : Option (Option String) := none
  name : Option (Option String) := none
  articleBody : Option (Option String) := none
  description : Option (Option String) := none
  inLanguage : Option (Option String) := none
  datePublished : Option (Option String) := none
  dateModified : Option (Option String) := none
  dateCreated : Option (Option String) := none
  url : Option (Option String) := none
  articleSection : List String := []
  author : List JsonLdAuthor := []
  publisher : List JsonLdAuthor := []
  image : List String := []
  keywords : List String := []

/-- `metadata_json_ld.get(key)` for a scalar field: absent and
present-as-None both read as `None`. -/
def mGet (f : Option (Option String)) : Option String :=
  f.join

/-- The four schema tables of `extract_json_ld`. -/
def NEWSARTICLE_SCHEMA : List String :=
  ["AnalysisNewsArticle", "AskPublicNewsArticle", "BackgroundNewsArticle",
   "NewsArticle", "OpinionNewsArticle", "ReportageNewsArticle",
   "ReviewNewsArticle"]

/-- `ARTICLE_SCHEMA`. -/
def ARTICLE_SCHEMA : List String :=
  ["Article", "AdvertiserContentArticle", "Report", "SatiricalArticle",
   "ScholarlyArticle"]

/-- `BLOGPOST_SCHEMA`. -/
def BLOGPOST_SCHEMA : List String :=
  ["SocialMediaPosting", "BlogPosting", "LiveBlogPosting",
   "DiscussionForumPosting"]

/-- `WEBPAGE_SCHEMA`. -/
def WEBPAGE_SCHEMA : List String :=
  ["WebPage"]

/-- The `"@type" in x and (...)` test of the category comprehensions; the
`in` raises `TypeError` on non-container values and on container hits, and
`x["@type"][0]` raises `IndexError` on an empty type list.  A non-string
first list element just fails the `in SCHEMA` membership. -/
def typeMatches (schema : List String) : Json → Except PyErr Bool
  | .obj f =>
    match jGet f "@type" with
    | none => .ok false
    | some (.str s) => .ok (schema.any (fun y => y == s))
    | some (.arr items) =>
      match items with
      | [] => .error .indexError
      | .str s :: _ => .ok (schema.any (fun y => y == s))
      | _ :: _ => .ok false
    | some _ => .ok false
  | .str s => if pyContains s "@type" then .error .typeError else .ok false
  | .arr items =>
    if items.any (isStrEq "@type") then .error .typeError else .ok false
  | _ => .error .typeError

/-- The list comprehension filtering one schema category. -/
def filterTypeMatches (schema : List String) : List Json → Except PyErr (List Json)
  | [] => .ok []
  | x :: rest =>
    match typeMatches schema x with
    | .error e => .error e
    | .ok b =>
      match filterTypeMatches schema rest with
      | .error e => .error e
      | .ok l => .ok (if b then x :: l else l)

/-- One category step of `sorted_article_dictlist`: a category with exactly
one match contributes it; zero or several matches are logged and skipped. -/
def categoryPick (schema : List String) (dictlist : List Json) :
    Except PyErr (List Json) :=
  match filterTypeMatches schema dictlist with
  | .error e => .error e
  | .ok [x] => .ok [x]
  | .ok _ => .ok []

/-- `sorted_article_dictlist`: NewsArticle, then Article, then BlogPosting,
then WebPage. -/
def sortedArticleDictlist (dictlist : List Json) : Except PyErr (List Json) :=
  match categoryPick NEWSARTICLE_SCHEMA dictlist with
  | .error e => .error e
  | .ok l1 =>
    match categoryPick ARTICLE_SCHEMA dictlist with
    | .error e => .error e
    | .ok l2 =>
      match categoryPick BLOGPOST_SCHEMA dictlist with
      | .error e => .error e
      | .ok l3 =>
        match categoryPick WEBPAGE_SCHEMA dictlist with
        | .error e => .error e
        | .ok l4 => .ok (l1 ++ l2 ++ l3 ++ l4)

/-- The plain-string scalar merge (`headline`, `name`, `articleBody`,
`description`, `inLanguage`): strip, drop empties, first category wins. -/
def mergeScalar (cur : Option (Option String)) (v : Option Json) :
    Option (Option String) :=
  match v with
  | some (.str s) =>
    let s := pyStrip s
    if pyLen s > 0 then (if cur = none then some (some s) else cur) else cur
  | _ => cur

/-- The date merge (`datePublished`, `dateModified`, `dateCreated`): the
parsed value — possibly `None` — is stored, occupying the key. -/
def mergeDate (cur : Option (Option String)) (v : Option Json) :
    Option (Option String) :=
  match v with
  | some (.str s) =>
    let s := pyStrip s
    if pyLen s > 0 then (if cur = none then some (parse_dt_str (some s)) else cur)
    else cur
  | _ => cur

/-- The `url` merge: an invalid URL is skipped (`continue`), leaving the
key unset. -/
def mergeUrl (cur : Option (Option String)) (v : Option Json) :
    Option (Option String) :=
  match v with
  | some (.str s) =>
    let s := pyStrip s
    if pyLen s > 0 then
      if validate_url (some s) then (if cur = none then some (some s) else cur)
      else cur
    else cur
  | _ => cur

/-- The `articleSection` merge: a string or a list of strings, stripped,
empties dropped, appended across categories. -/
def mergeSection (cur : List String) (v : Option Json) : List String :=
  match v with
  | some (.str s) =>
    let s := pyStrip s
    if pyLen s > 0 then cur ++ [s] else cur
  | some (.arr items) =>
    cur ++ items.filterMap (fun j =>
      match j with
      | .str s =>
        let s := pyStrip s
        if pyLen s > 0 then some s else none
      | _ => none)
  | _ => cur

/-- The `author`/`publisher` merge: only object-shaped values with a
nonempty string name are kept; a string `url` is validated (else nulled),
while a non-string `url` is left as-is by the guard. -/
def mergeAuthor (cur : List JsonLdAuthor) (v : Option Json) : List JsonLdAuthor :=
  match v with
  | some (.obj f) =>
    match jGet f "name" with
    | some (.str nm) =>
      let nm := pyStrip nm
      if pyLen nm > 0 then
        let u :=
          match jGet f "url" with
          | some (.str us) =>
            if pyLen us > 0 && validate_url (some us) then some (Json.str us)
            else none
          | some other => some other
          | none => none
        cur ++ [⟨nm, u⟩]
      else cur
    | _ => cur
  | _ => cur

/-- The `image` merge: `ImageObject`-shaped dicts (or a list of them) with
a validated string `url`. -/
def mergeImage (cur : List String) (v : Option Json) : List String :=
  let fromObj : List (String × Json) → List String := fun f =>
    match jGet f "@type" with
    | some (.str ty) =>
      if ty == "ImageObject" then
        match jGet f "url" with
        | some (.str us) => if validate_url (some us) then [us] else []
        | _ => []
      else []
    | _ => []
  match v with
  | some (.obj f) => cur ++ fromObj f
  | some (.arr items) =>
    cur ++ items.flatMap (fun j =>
      match j with
      | .obj f => fromObj f
      | _ => [])
  | _ => cur

/-- The `keywords` merge: only a single comma-separated string is accepted
(a list-valued `keywords` falls through to the logged default branch). -/
def mergeKeywords (cur : List String) (v : Option Json) : List String :=
  match v with
  | some (.str s) =>
    let s0 := pyStrip s
    if pyLen s0 > 0 then
      cur ++ ((pySplitOn s ',').map pyStrip).filter (fun x => pyLen x > 0)
    else cur
  | _ => cur

/-- Merge one selected node's properties into the accumulated dict. -/
def mergeItem (m : JsonLdMeta) (item : List (String × Json)) : JsonLdMeta :=
  { headline := mergeScalar m.headline (jGet item "headline")
    name := mergeScalar m.name (jGet item "name")
    articleBody := mergeScalar m.articleBody (jGet item "articleBody")
    description := mergeScalar m.description (jGet item "description")
    inLanguage := mergeScalar m.inLanguage (jGet item "inLanguage")
    datePublished := mergeDate m.datePublished (jGet item "datePublished")
    dateModified := mergeDate m.dateModified (jGet item "dateModified")
    dateCreated := mergeDate m.dateCreated (jGet item "dateCreated")
    url := mergeUrl m.url (jGet item "url")
    articleSection := mergeSection m.articleSection (jGet item "articleSection")
    author := mergeAuthor m.author (jGet item "author")
    publisher := mergeAuthor m.publisher (jGet item "publisher")
    image := mergeImage m.image (jGet item "image")
    keywords := mergeKeywords m.keywords (jGet item "keywords") }

/-- The field-merge loop over `sorted_article_dictlist` (non-dict items
cannot occur: only dicts match a category). -/
def mergeFields (m : JsonLdMeta) : List Json → JsonLdMeta
  | [] => m
  | .obj f :: rest => mergeFields (mergeItem m f) rest
  | _ :: rest => mergeFields m rest

/-- `metadata.extract_json_ld`. -/
def extract_json_ld (blocks : List ScriptBlock) : Except PyErr JsonLdMeta :=
  match extract_json_ld_dictlist blocks with
  | .error e => .error e
  | .ok dictlist =>
    match sortedArticleDictlist dictlist with
    | .error e => .error e
    | .ok sorted => .ok (mergeFields {} sorted)

/-! ### ArticleExtractor.set_base_tag (extractor.py)

`set_base_tag` walks `BASE_TAG_SELECTORS`; for each selector group with a
nonempty selection it takes the match with the largest `_ld_tc` and accepts
it if its share of the body's `_ld_tc` exceeds
`config.BASE_TAG_CHARS_RATIO = 0.4`.  The float comparison
`largest_choice_tc / tc > 0.4` is modelled by the exact integer inequality
`5 * largest_choice_tc > 2 * tc` (equivalent for the exact ratio); when the
body's `_ld_tc` is zero the division raises `ZeroDivisionError`. -/

/-- Selector atom `tag[itemtype*='schema.org/<ty>']`. -/
def itemtypeSel (tag ty : String) : SimpleSel :=
  ⟨some tag, [.containsAttr "itemtype" ("schema.org/" ++ ty)], none⟩

/-- Selector atoms `tag[id='article'], tag[id='main'], tag[role^='article'],
tag[role^='main']`. -/
def idRoleSels (tag : String) : List SimpleSel :=
  [⟨some tag, [.eqAttr "id" "article"], none⟩,
   ⟨some tag, [.eqAttr "id" "main"], none⟩,
   ⟨some tag, [.startAttr "role" "article"], none⟩,
   ⟨some tag, [.startAttr "role" "main"], none⟩]

/-- Bare tag-name selector atom. -/
def bareSel (tag : String) : SimpleSel :=
  ⟨some tag, [], none⟩

/-- `ArticleExtractor.BASE_TAG_SELECTORS`, transcribed group by group. -/
def BASE_TAG_SELECTORS : List (List SimpleSel) :=
  [[itemtypeSel "article" "NewsArticle", itemtypeSel "article" "Article",
    itemtypeSel "article" "BlogPosting"],
   [itemtypeSel "main" "NewsArticle", itemtypeSel "main" "Article",
    itemtypeSel "main" "BlogPosting"],
   [itemtypeSel "section" "NewsArticle", itemtypeSel "section" "Article",
    itemtypeSel "section" "BlogPosting"],
   [itemtypeSel "div" "NewsArticle", itemtypeSel "div" "Article",
    itemtypeSel "div" "BlogPosting"],
   idRoleSels "article",
   [bareSel "article"],
   idRoleSels "main",
   [bareSel "main"],
   idRoleSels "section" ++ idRoleSels "div",
   [itemtypeSel "section" "WebPage", itemtypeSel "div" "WebPage"],
   [bareSel "body"]]

/-- Python `max(x :: xs, key=f)`: the first element attaining the maximum
(later elements replace the current best only on a strictly larger key). -/
def pyMaxBy {α : Type} (f : α → Nat) : α → List α → α
  | best, [] => best
  | best, x :: xs => if f x > f best then pyMaxBy f x xs else pyMaxBy f best xs

/-- The selector loop of `ArticleExtractor.set_base_tag`, with `tc` the
body's `_ld_tc`. -/
def setBaseTagGo (t : Node) (tc : Nat) : List (List SimpleSel) → Except PyErr DomPath
  | [] => .error .valueError
  | sels :: rest =>
    match selectAll t [] sels with
    | [] => setBaseTagGo t tc rest
    | c :: cs =>
      let largest := pyMaxBy (fun pn => totalChars pn.2) c cs
      if tc = 0 then .error .zeroDivisionError
      else if 5 * totalChars largest.2 > 2 * tc then .ok largest.1
      else setBaseTagGo t tc rest

/-- `ArticleExtractor.set_base_tag` on a cleaned document: returns the path
of the base tag, or the Python exception raised. -/
def setBaseTag (t : Node) : Except PyErr DomPath :=
  match firstBody t with
  | none => .error .attributeError
  | some (_, bodyNode) => setBaseTagGo t (totalChars bodyNode) BASE_TAG_SELECTORS

/-! ### ArticleExtractor.set_top_tag (extractor.py)

Tags are modelled by their paths (path equality is bs4 object identity;
`==`/`in` on tags is structural value equality).  The memoized `_ld_tc`
and `_linkdensity` annotations written by the Cleaner are read back as
`totalChars` and `densityAt`. -/

/-- `ArticleExtractor.TAGS_TO_CHECK_LISTS`. -/
def TAGS_TO_CHECK_LISTS : List (List String) :=
  [["p"], ["span", "ol", "ul"], ["div", "section"]]

/-- Proper prefixes of a path, shortest (root) first. -/
def prefixesAsc : DomPath → List DomPath
  | [] => []
  | a :: rest => [] :: (prefixesAsc rest).map (fun q => a :: q)

/-- Proper prefixes of a path, longest first: `tag.parents` as paths. -/
def prefixesDesc (p : DomPath) : List DomPath :=
  (prefixesAsc p).reverse

/-- Whether the node `x` is `==`-equal to some ancestor of the node at `q`
(the value-equality test `x in other_tag.parents`). -/
def valueInParents (t : Node) (q : DomPath) (x : Node) : Bool :=
  (prefixesDesc q).any (fun r => decide (nodeAt t r = some x))

/-- The `for parent in tag.find_parents(True)` loop of
`_get_lowest_common_ancestor`: at each ancestor drop from `others` every
tag with a `==`-equal ancestor (`parent not in other_tag.parents` is a
value-equality test), and return the ancestor once `others` empties. -/
def lcaLoop (t : Node) : List DomPath → List DomPath → Option DomPath
  | [], _ => none
  | pr :: prs, others =>
    match nodeAt t pr with
    | none => none
    | some pn =>
      match others.filter (fun q => !(valueInParents t q pn)) with
      | [] => some pr
      | o :: os => lcaLoop t prs (o :: os)

/-- `_get_lowest_common_ancestor`: `None` on an empty list, the tag itself
on a singleton, else the parent walk from the last tag. -/
def lowestCommonAncestor (t : Node) : List DomPath → Option DomPath
  | [] => none
  | [p] => some p
  | p :: q :: rest =>
    lcaLoop t (prefixesDesc ((q :: rest).getLastD q)) ((p :: q :: rest).dropLast)

/-- Value-equality membership of the node at `tagP` among the element
descendants of the node at `anc` (`tag in list(ancestor.find_all(True))`). -/
def valueInDescendants (t : Node) (anc tagP : DomPath) : Bool :=
  match nodeAt t anc, nodeAt t tagP with
  | some an, some tn =>
    (descNode anc an).any (fun pn => pn.2.isElem && decide (pn.2 = tn))
  | _, _ => false

/-- `_get_ancestral_distance`: `0` on the same node, the edge count when
`ancestor` is a strict (identity) ancestor, `ValueError` otherwise — the
entry guard tests value equality, so a `==`-equal non-descendant passes it
and still dies in the identity walk up `tag.parents`. -/
def ancestralDistance (t : Node) (anc tagP : DomPath) : Except PyErr Nat :=
  if !(decide (tagP = anc)) && !(valueInDescendants t anc tagP) then
    .error .valueError
  else if tagP = anc then .ok 0
  else if anc.isPrefixOf tagP then .ok (tagP.length - anc.length)
  else .error .valueError

/-- `[self._get_ancestral_distance(current, tag) for tag in ...]`,
propagating the first exception. -/
def distancesOf (t : Node) (anc : DomPath) : List DomPath → Except PyErr (List Nat)
  | [] => .ok []
  | q :: qs =>
    match ancestralDistance t anc q with
    | .error e => .error e
    | .ok d =>
      match distancesOf t anc qs with
      | .error e => .error e
      | .ok ds => .ok (d :: ds)

/-- Paths of the element children `cs.drop i` of the node at `p`. -/
def childElemPaths (p : DomPath) (i : Nat) : List Node → List DomPath
  | [] => []
  | c :: cs =>
    if c.isElem then (p ++ [i]) :: childElemPaths p (i + 1) cs
    else childElemPaths p (i + 1) cs

/-- `current.find_all(recursive=False)`: the element children as paths. -/
def childPathsOf (t : Node) (p : DomPath) : List DomPath :=
  match nodeAt t p with
  | none => []
  | some n => childElemPaths p 0 n.children

/-- `[tag for tag in current_tag_list if candidate is tag or candidate in
tag.parents]`: identity on the first test, value equality on the second. -/
def candListOf (t : Node) (curList : List DomPath) (cand : DomPath) : List DomPath :=
  curList.filter (fun q =>
    decide (q = cand) ||
    (match nodeAt t cand with
     | some cn => valueInParents t q cn
     | none => false))

/-- `sum(int(tag.get("_ld_tc")) for tag in ...)`, the memoized annotation
read back as `totalChars`. -/
def sumTc (t : Node) (qs : List DomPath) : Nat :=
  qs.foldl (fun acc q => acc + (match nodeAt t q with
    | some n => totalChars n
    | none => 0)) 0

/-- The best-candidate loop of `_get_best_common_ancestor`: strictly larger
sums win (first maximal candidate kept); `None` survives when every
candidate sums to 0, and the Python then dies assigning the unbound
`best_candidate_tag_list` (`NameError`). -/
def bestCandidate (t : Node) (curList : List DomPath) :
    List DomPath → Option (DomPath × List DomPath) → Nat →
      Option (DomPath × List DomPath)
  | [], best, _ => best
  | c :: cs, best, bestSum =>
    if sumTc t (candListOf t curList c) > bestSum then
      bestCandidate t curList cs (some (c, candListOf t curList c))
        (sumTc t (candListOf t curList c))
    else bestCandidate t curList cs best bestSum

/-- The descent loop of `_get_best_common_ancestor` with
`MAX_LEVELS = 5`; the descent strictly deepens, so fuel `Node.size t + 1`
always suffices. -/
def bcaLoop (t : Node) : Nat → DomPath → List DomPath → Except PyErr (Option DomPath)
  | 0, _, _ => .error .fuelExhausted
  | fuel + 1, current, curList =>
    match distancesOf t current curList with
    | .error e => .error e
    | .ok ds =>
      if ds.all (fun d => d ≤ 5) then .ok (lowestCommonAncestor t curList)
      else
        match bestCandidate t curList (childPathsOf t current) none 0 with
        | none => .error .nameError
        | some (cp, cl) => bcaLoop t fuel cp cl

/-- `_get_best_common_ancestor`. -/
def getBestCommonAncestor (t : Node) : List DomPath → Except PyErr (Option DomPath)
  | [] => .ok none
  | [p] => .ok (some p)
  | p :: q :: rest =>
    match lowestCommonAncestor t (p :: q :: rest) with
    | none => .error .attributeError
    | some g => bcaLoop t (Node.size t + 1) g (p :: q :: rest)

/-- The `skip_check` computation of `set_top_tag` over one tag's children:
a non-whitespace string child, or an element child not `==`-present in
`tags_to_check`, turns the skip off. -/
def skipCheckGo (tags : List (DomPath × Node)) : List Node → Bool
  | [] => true
  | Node.text s :: cs => if !(isWsString s) then false else skipCheckGo tags cs
  | Node.comment s :: cs => if !(isWsString s) then false else skipCheckGo tags cs
  | Node.elem nm a cc :: cs =>
    if !(tags.any (fun pn => decide (pn.2 = Node.elem nm a cc))) then false
    else skipCheckGo tags cs

/-- `get_css_selector_of_soup_tag(tag, reduced=True)` as the list of tag
names from the root's child down to the node at `p` (the soup root is
never emitted). -/
def pathNames (t : Node) (p : DomPath) : List String :=
  (List.range p.length).map (fun k =>
    match nodeAt t (p.take (k + 1)) with
    | some n => n.nameOf
    | none => "")

/-- One `css_dict`/`css_counter` insertion: an insertion-ordered
association list keyed by the reduced selector, accumulating the tag paths
and their `_ld_tc` total. -/
def addGroup (key : List String) (p : DomPath) (tc : Nat) :
    List (List String × List DomPath × Nat) →
      List (List String × List DomPath × Nat)
  | [] => [(key, [p], tc)]
  | (k, ps, s) :: rest =>
    if k = key then (k, ps ++ [p], s + tc) :: rest
    else (k, ps, s) :: addGroup key p tc rest

/-- The grouping loop of `set_top_tag` over the checked tags, keyed by the
parent's reduced CSS selector. -/
def buildGroups (t : Node) (tags : List (DomPath × Node)) :
    List (DomPath × Node) → List (List String × List DomPath × Nat) →
      List (List String × List DomPath × Nat)
  | [], acc => acc
  | pn :: rest, acc =>
    if skipCheckGo tags pn.2.children then buildGroups t tags rest acc
    else buildGroups t tags rest
      (addGroup (pathNames t pn.1.dropLast) pn.1 (totalChars pn.2) acc)

/-- The float test `float(tag.get("_linkdensity")) < 0.75` as the exact
integer comparison: the stored `_linkdensity` is `lc/tc`, or `0.0` when
`tc = 0` (see `ldBelowUB_iff` for agreement with `densityAt`). -/
def ldBelowUB (t : Node) (p : DomPath) : Bool :=
  match nodeAt t p with
  | some n =>
    decide (totalChars n = 0) ||
      decide (4 * linkChars (inAnchorCtx t p) n < 3 * totalChars n)
  | none => true

/-- The link-density prefilter of `set_top_tag`: keep the tags whose
`_linkdensity` is below `LINKDENSITY_UPPERBOUND = 0.75` when at least
`MIN_TAGS_TO_CHECK = 1` of them survive, else keep them all. -/
def ldFiltered (t : Node) (tags0 : List (DomPath × Node)) : List (DomPath × Node) :=
  if 1 ≤ (tags0.filter (fun pn => ldBelowUB t pn.1)).length then
    tags0.filter (fun pn => ldBelowUB t pn.1)
  else tags0

/-- The `for choices in TAGS_TO_CHECK_LISTS` loop of `set_top_tag`: the
first choice list matching inside the base tag is grouped by parent
selector (`IndexError` when `skip_check` drops every tag) and the heaviest
group's best common ancestor is returned; with no matches anywhere,
`top_tag` falls back to `base_tag` itself. -/
def setTopTagGo (t : Node) (basePath : DomPath) :
    List (List String) → Except PyErr (Option DomPath)
  | [] => .ok (some basePath)
  | choices :: rest =>
    match findAllNames t basePath choices with
    | [] => setTopTagGo t basePath rest
    | tg :: tgs =>
      match buildGroups t (ldFiltered t (tg :: tgs)) (ldFiltered t (tg :: tgs)) [] with
      | [] => .error .indexError
      | g :: gs => getBestCommonAncestor t (pyMaxBy (fun x => x.2.2) g gs).2.1

/-- `ArticleExtractor.set_top_tag`, given the already-set base tag path:
the top tag path (`none` models `self.top_tag = None`), or the exception
raised. -/
def setTopTag (t : Node) (basePath : DomPath) : Except PyErr (Option DomPath) :=
  setTopTagGo t basePath TAGS_TO_CHECK_LISTS

/-! ### ArticleExtractor.extract_timestamps (extractor.py)

The method reads `self.metadata["json_ld"]` and `self.metadata["opengraph"]`
— string dictionaries by that point — and `self.soup`, modelled here as the
three inputs.  (Its `if self.page_url is None: self.extract_page_url()`
prelude touches only cached state, not this output.)  Each stage of the
priority chain assigns the value only when it is still `None`, but each
stage's `if <value> is not None: <method> = "..."` check is unconditional,
so every later stage overwrites the provenance recorded by the stage that
actually supplied the value. -/

/-- One `for tag in soup.select(...): v = parse_dt_str(tag.get(a)); if v is
not None: break` loop: the loop variable once the loop ends. -/
def firstParsedDt (attr : String) : List (DomPath × Node) → Option String
  | [] => none
  | t :: rest =>
    match parse_dt_str (t.2.getAttr attr) with
    | some s => some s
    | none => firstParsedDt attr rest

/-- `time[itemprop~='datePublished']`. -/
def timePublishedSel : SimpleSel :=
  ⟨some "time", [AttrCond.wordAttr "itemprop" "datePublished"], none⟩

/-- `meta[itemprop~='datePublished']`. -/
def metaPublishedSel : SimpleSel :=
  ⟨some "meta", [AttrCond.wordAttr "itemprop" "datePublished"], none⟩

/-- `time[itemprop~='dateModified']`. -/
def timeModifiedSel : SimpleSel :=
  ⟨some "time", [AttrCond.wordAttr "itemprop" "dateModified"], none⟩

/-- `meta[itemprop~='dateModified']`. -/
def metaModifiedSel : SimpleSel :=
  ⟨some "meta", [AttrCond.wordAttr "itemprop" "dateModified"], none⟩

/-- The return value of `extract_timestamps`: the two timestamp dict values
and the two method dict values. -/
structure TsResult where
  published : Option String
  modified : Option String
  publishedMethod : Option String
  modifiedMethod : Option String
  deriving DecidableEq, Repr

/-- One stage of the chain, on the pair (value, method): `if v is None:
v = lookup`, then the unconditional `if v is not None: method = m`. -/
def tsStage (m : String) (lookup : Option String)
    (st : Option String × Option String) : Option String × Option String :=
  (if st.1.isNone then lookup else st.1,
   if (if st.1.isNone then lookup else st.1).isSome then some m else st.2)

/-- `ArticleExtractor.extract_timestamps`, line for line: five stages for
the published timestamp (JSON-LD `datePublished`, OGP
`article:published_time`, JSON-LD `dateCreated`, `<time>` tags, `<meta>`
tags), four for the modified one. -/
def extract_timestamps (jsonLd ogp : List (String × String)) (soup : Node) :
    TsResult :=
  let p :=
    tsStage "meta" (firstParsedDt "content" (selectAll soup [] [metaPublishedSel]))
      (tsStage "time" (firstParsedDt "datetime" (selectAll soup [] [timePublishedSel]))
        (tsStage "json_ld" (dictGet jsonLd "dateCreated")
          (tsStage "ogp" (dictGet ogp "article:published_time")
            (tsStage "json_ld" (dictGet jsonLd "datePublished") (none, none)))))
  let q :=
    tsStage "meta" (firstParsedDt "content" (selectAll soup [] [metaModifiedSel]))
      (tsStage "time" (firstParsedDt "datetime" (selectAll soup [] [timeModifiedSel]))
        (tsStage "ogp" (dictGet ogp "article:modified_time")
          (tsStage "json_ld" (dictGet jsonLd "dateModified") (none, none))))
  ⟨p.1, q.1, p.2, q.2⟩

/-! ### ArticleExtractor.extract_title (extractor.py)

Inputs: the two metadata dictionaries, `self.page_url`, the soup and the
`clean` flag.  (The `if self.page_url is None: self.extract_page_url()`
prelude touches only cached state.) -/

mutual

/-- `tag.get_text()`: concatenated text descendants (bs4's default skips
`Comment` strings). -/
def getTextN : Node → String
  | .elem _ _ cs => getTextL cs
  | .text s => s
  | .comment _ => ""

/-- `get_text` over a list of children. -/
def getTextL : List Node → String
  | [] => ""
  | c :: cs => getTextN c ++ getTextL cs

end

mutual

/-- `tag.string`: the single string child, descending through lone child
tags; `None` when the tag has zero or several children. -/
def nodeString : Node → Option String
  | .text s => some s
  | .comment s => some s
  | .elem _ _ cs => singleString cs

/-- Helper of `nodeString` for a children list. -/
def singleString : List Node → Option String
  | [c] => nodeString c
  | _ => none

end

/-- The `tag_has_itemprop_headline` predicate of `extract_title`: a truthy
`itemprop` attribute whose stripped, whitespace-split words contain
`"headline"`. -/
def hasItempropHeadline (n : Node) : Bool :=
  n.isElem &&
  (match n.getAttr "itemprop" with
   | some ip => ip != "" && (pySplitWs (pyStrip ip)).any (fun s => s == "headline")
   | none => false)

/-- `self.soup.find_all(tag_has_itemprop_headline)`. -/
def itempropHeadlineTags (soup : Node) : List Node :=
  ((descNode [] soup).filter (fun pn => hasItempropHeadline pn.2)).map (fun pn => pn.2)

/-- The tag names whose itemprop value is the joined `src` attribute. -/
def IPROP_SRC_TAGS : List String :=
  ["audio", "embed", "iframe", "img", "source", "track", "video"]

/-- The tag names whose itemprop value is the joined `href` attribute. -/
def IPROP_HREF_TAGS : List String :=
  ["a", "area", "link"]

/-- `if self.page_url: value = urljoin(self.page_url, value)` (where
`urljoin` returns the base unchanged on a `None`/empty url). -/
def maybeJoin (pageUrl : Option String) (v : Option String) : Option String :=
  match pageUrl with
  | some b =>
    if 0 < pyLen b then some (urljoin b (match v with | some u => u | none => ""))
    else v
  | none => v

/-- The value rules of `_get_value_of_itemprop_element` for one tag.  The
`time` branch with a falsy `datetime` runs `tag.get_child_text()`: bs4
resolves the unknown attribute as a child-tag search yielding `None`, and
calling it raises `TypeError` (the helper of that name lives in `util` and
is never bound on tags). -/
def itempropValue (pageUrl : Option String) (n : Node) : Except PyErr (Option String) :=
  if n.nameOf == "meta" then .ok (n.getAttr "content")
  else if IPROP_SRC_TAGS.any (fun t => n.nameOf == t) then
    .ok (maybeJoin pageUrl (n.getAttr "src"))
  else if IPROP_HREF_TAGS.any (fun t => n.nameOf == t) then
    .ok (maybeJoin pageUrl (n.getAttr "href"))
  else if n.nameOf == "object" then .ok (maybeJoin pageUrl (n.getAttr "data"))
  else if n.nameOf == "data" then .ok (n.getAttr "value")
  else if n.nameOf == "meter" then .ok (n.getAttr "value")
  else if n.nameOf == "time" then
    match n.getAttr "datetime" with
    | some v => if v == "" then .error .typeError else .ok (some v)
    | none => .error .typeError
  else .ok (some (getTextN n))

/-- The `for title_tag in itemprop_list` loop of `extract_title`: the first
truthy `headline` value, if any. -/
def itempropTitleLoop (pageUrl : Option String) : List Node → Except PyErr (Option String)
  | [] => .ok none
  | t :: rest =>
    match itempropValue pageUrl t with
    | .error e => .error e
    | .ok (some s) =>
      if s != "" then .ok (some s) else itempropTitleLoop pageUrl rest
    | .ok none => itempropTitleLoop pageUrl rest

/-- `_process_short_field`: strip, then NFKC-normalize.  Modelled from the
spec: NFKC normalization is the identity on the ASCII strings modelled
here. -/
def processShortField (s : String) : String :=
  pyStrip s

/-- The `<h1>` branches of `extract_title`: the lone `<h1>`'s nonempty
stripped text, or with several `<h1>`s the first match of the four
substring selectors; `none` falls through to the `<title>` branch. -/
def h1Title (soup : Node) : Option (String × String) :=
  match findAllNames soup [] ["h1"] with
  | [h] =>
    if 0 < pyLen (pyStrip (getTextN h.2)) then
      some (processShortField (pyStrip (getTextN h.2)), "h1")
    else none
  | _ :: _ :: _ =>
    (match selectAll soup [] [⟨some "h1", [AttrCond.containsAttr "id" "title"], none⟩] with
     | h :: _ => some (processShortField (getTextN h.2), "h1_title_headline")
     | [] =>
     match selectAll soup [] [⟨some "h1", [AttrCond.containsAttr "id" "headline"], none⟩] with
     | h :: _ => some (processShortField (getTextN h.2), "h1_title_headline")
     | [] =>
     match selectAll soup [] [⟨some "h1", [AttrCond.containsAttr "class" "title"], none⟩] with
     | h :: _ => some (processShortField (getTextN h.2), "h1_title_headline")
     | [] =>
     match selectAll soup [] [⟨some "h1", [AttrCond.containsAttr "class" "headline"], none⟩] with
     | h :: _ => some (processShortField (getTextN h.2), "h1_title_headline")
     | [] => none)
  | [] => none

/-- `self.soup.head` / `head_tag.title` / `self.soup.title`: the `<title>`
tag the final branch reads, searching inside the first `<head>` first and
falling back to the whole soup. -/
def titleTagOf (soup : Node) : Option (DomPath × Node) :=
  match (findAllNames soup [] ["head"]).head? with
  | none => (findAllNames soup [] ["title"]).head?
  | some hd =>
    match (findAllNames soup hd.1 ["title"]).head? with
    | some tt => some tt
    | none => (findAllNames soup [] ["title"]).head?

/-- Whether `TITLE_REGEX` (one or more whitespace, `-` or `|`, one or more
whitespace) matches at the head of the list; if so, the remainder after the
greedy match. -/
def titleSepAt : List Char → Option (List Char)
  | [] => none
  | c :: cs =>
    if isPySpace c then
      match cs.dropWhile isPySpace with
      | d :: ds =>
        if d == '-' || d == '|' then
          match ds with
          | e :: es => if isPySpace e then some (es.dropWhile isPySpace) else none
          | [] => none
        else none
      | [] => none
    else none

/-- `re.split(TITLE_REGEX, title)`, by fuelled left-to-right scan (fuel one
more than the length always suffices). -/
def splitTitleGo (fuel : Nat) (acc : List Char) (l : List Char) : List String :=
  match fuel with
  | 0 => [String.mk acc.reverse]
  | fuel + 1 =>
    match l with
    | [] => [String.mk acc.reverse]
    | c :: cs =>
      match titleSepAt (c :: cs) with
      | some rest => String.mk acc.reverse :: splitTitleGo fuel [] rest
      | none => splitTitleGo fuel (c :: acc) cs

/-- `matchlist`: the regex split, each piece stripped, empty pieces
dropped. -/
def splitTitle (s : String) : List String :=
  ((splitTitleGo (s.data.length + 1) [] s.data).map pyStrip).filter
    (fun x => 0 < pyLen x)

/-- `ArticleExtractor.extract_title`: the `(title, method)` pair, or the
Python exception raised. -/
def extract_title (jsonLd ogp : List (String × String)) (pageUrl : Option String)
    (soup : Node) (clean : Bool) : Except PyErr (Option String × Option String) :=
  match dictGet jsonLd "headline" with
  | some t => .ok (some (processShortField t), some "json_ld_headline")
  | none =>
  match dictGet jsonLd "name" with
  | some t => .ok (some (processShortField t), some "json_ld_name")
  | none =>
  match dictGet ogp "og:title" with
  | some t => .ok (some (processShortField t), some "ogp")
  | none =>
  match itempropTitleLoop pageUrl (itempropHeadlineTags soup) with
  | .error e => .error e
  | .ok (some t) => .ok (some (processShortField t), some "itemprop_headline")
  | .ok none =>
  match h1Title soup with
  | some (t, m) => .ok (some t, some m)
  | none =>
  match titleTagOf soup with
  | none => .ok (none, none)
  | some tt =>
    match nodeString tt.2 with
    | none => .error .attributeError
    | some s =>
      if !clean then .ok (some (processShortField (pyStrip s)), some "title")
      else
        match splitTitle (pyStrip s) with
        | [] => .ok (none, none)
        | m :: ms =>
          .ok (some (processShortField (pyMaxBy pyLen m ms)), some "title_cleaned")

/-! ### AssetExtractor._process_link_list (extractor.py) -/

/-- Modelled from the spec: `urllib.parse.urlparse(s).scheme` — the
lowercased characters before the first colon when they form a valid scheme
(leading letter, then letters, digits, `+`, `-`, `.`), else the empty
string. -/
def urlScheme (s : String) : String :=
  match s.data with
  | c :: cs =>
    if c.isAlpha && splitSchemeGo (c :: cs) then
      String.mk ((upToColon (c :: cs)).map Char.toLower)
    else ""
  | [] => ""

/-- One link object of `_process_link_list`. -/
structure LinkItem where
  url : Option String
  text : Option String
  deriving DecidableEq, Repr

/-- `AssetExtractor.URL_SCHEMES`. -/
def URL_SCHEMES : List String := ["http", "https", ""]

/-- `AssetExtractor._process_link_list`: drops falsy hrefs, stripped hrefs
starting with `#`, and schemes outside `URL_SCHEMES`; joins the survivors
onto `self.page_url` (with `urljoin(None, href) = href`) and strips truthy
texts.  No URL validation is performed. -/
def processLinkList (pageUrl : Option String) : List LinkItem → List LinkItem
  | [] => []
  | li :: rest =>
    match li.url with
    | none => processLinkList pageUrl rest
    | some h0 =>
      if h0 == "" then processLinkList pageUrl rest
      else if pyStartsWith (pyStrip h0) "#" then processLinkList pageUrl rest
      else if !(URL_SCHEMES.any (fun s => urlScheme (pyStrip h0) == s)) then
        processLinkList pageUrl rest
      else
        ⟨some (urljoin (match pageUrl with | some b => b | none => "") (pyStrip h0)),
         match li.text with
         | some t => if t == "" then none else some (pyStrip t)
         | none => none⟩ :: processLinkList pageUrl rest

/-! ### Extractor state caching (extract_page_url and the field-extractor
preludes, extractor.py)

`self.page_url`, `self.base_tag` and `self.top_tag` are the only instance
fields the field extractors write, and each is written only behind an
`is None` guard in their preludes (the bodies of `extract_description`,
`extract_language`, `extract_keywords`, `extract_timestamps` and
`extract_title` read state but never assign these fields; `extract_authors`
additionally runs the guarded `set_base_tag`/`set_top_tag` preludes). -/

structure ExtState where
  pageUrl : Option String
  baseTag : Option DomPath
  topTag : Option DomPath
  deriving DecidableEq, Repr

/-- `head link[rel='canonical']`. -/
def canonicalSel : SimpleSel :=
  ⟨some "link", [.eqAttr "rel" "canonical"], some "head"⟩

/-- `head link[rel='alternate'][hreflang]`. -/
def alternateSel : SimpleSel :=
  ⟨some "link", [.eqAttr "rel" "alternate", .presentAttr "hreflang"], some "head"⟩

/-- The canonical-link comprehension: hrefs that exist, carry an allowed
scheme and pass validation. -/
def canonicalUrls (tags : List (DomPath × Node)) : List String :=
  tags.filterMap (fun pn =>
    match pn.2.getAttr "href" with
    | some u =>
      if URL_SCHEMES.any (fun s => urlScheme u == s) && validate_url (some u) then
        some u
      else none
    | none => none)

/-- The `rel='alternate'` loop: the first allowed, validated href
(`urlparse(None)` coerces to the empty split, and `validate_url(None)` is
false, so href-less tags are skipped). -/
def alternateUrl : List (DomPath × Node) → Option String
  | [] => none
  | pn :: rest =>
    if URL_SCHEMES.any (fun s =>
         urlScheme (match pn.2.getAttr "href" with | some u => u | none => "") == s) &&
       validate_url (pn.2.getAttr "href") then pn.2.getAttr "href"
    else alternateUrl rest

/-- The OGP, alternate-link and JSON-LD stages of `extract_page_url`. -/
def extractPageUrlRest (jsonLd ogp : List (String × String)) (soup : Node)
    (st : ExtState) : (Option String × Option String) × ExtState :=
  if validate_url (dictGet ogp "og:url") then
    ((dictGet ogp "og:url", some "ogp"), { st with pageUrl := dictGet ogp "og:url" })
  else
    match alternateUrl (selectAll soup [] [alternateSel]) with
    | some u => ((some u, some "alternate"), { st with pageUrl := some u })
    | none =>
      if validate_url (dictGet jsonLd "url") then
        ((dictGet jsonLd "url", some "json_ld"),
         { st with pageUrl := dictGet jsonLd "url" })
      else ((none, none), st)

/-- `ArticleExtractor.extract_page_url`: the `(url, method)` return value
and the updated state.  Every branch that finds a URL assigns
`self.page_url` before returning (with several canonical candidates the
first is kept); the final fall-through leaves the state untouched.  An
empty filtered canonical list only logs and falls through to OGP. -/
def extract_page_url (jsonLd ogp : List (String × String)) (soup : Node)
    (st : ExtState) : (Option String × Option String) × ExtState :=
  match selectAll soup [] [canonicalSel] with
  | c :: cs =>
    match canonicalUrls (c :: cs) with
    | u :: _ => ((some u, some "canonical"), { st with pageUrl := some u })
    | [] => extractPageUrlRest jsonLd ogp soup st
  | [] => extractPageUrlRest jsonLd ogp soup st

/-- The caching prelude shared by every field extractor:
`if self.page_url is None: self.extract_page_url()`. -/
def ensurePageUrl (jsonLd ogp : List (String × String)) (soup : Node)
    (st : ExtState) : ExtState :=
  match st.pageUrl with
  | none => (extract_page_url jsonLd ogp soup st).2
  | some _ => st

/-- The state effect of `set_base_tag`: `self.base_tag` is assigned only on
success; exceptions propagate with the state untouched. -/
def set_base_tag_state (t : Node) (st : ExtState) : Except PyErr ExtState :=
  match setBaseTag t with
  | .error e => .error e
  | .ok bp => .ok { st with baseTag := some bp }

/-- Python truthiness of a tag (`len(tag.contents)` for tags, string
nonemptiness for strings): `set_top_tag`'s own prelude is `if not
self.base_tag`, not an `is None` test. -/
def tagTruthy (t : Node) (p : DomPath) : Bool :=
  match nodeAt t p with
  | some (Node.elem _ _ cs) => !cs.isEmpty
  | some (Node.text s) => !s.data.isEmpty
  | some (Node.comment s) => !s.data.isEmpty
  | none => true

/-- The state effect of `set_top_tag`: re-runs `set_base_tag` when
`self.base_tag` is `None` or falsy, then always assigns `self.top_tag`
(possibly to `None`). -/
def set_top_tag_state (t : Node) (st : ExtState) : Except PyErr ExtState :=
  match st.baseTag with
  | some bp =>
    if tagTruthy t bp then
      match setTopTag t bp with
      | .error e => .error e
      | .ok tp => .ok { st with topTag := tp }
    else
      match set_base_tag_state t st with
      | .error e => .error e
      | .ok st1 =>
        match st1.baseTag with
        | some bp1 =>
          match setTopTag t bp1 with
          | .error e => .error e
          | .ok tp => .ok { st1 with topTag := tp }
        | none => .error .attributeError
  | none =>
    match set_base_tag_state t st with
    | .error e => .error e
    | .ok st1 =>
      match st1.baseTag with
      | some bp1 =>
        match setTopTag t bp1 with
        | .error e => .error e
        | .ok tp => .ok { st1 with topTag := tp }
      | none => .error .attributeError

/-- The state effect of `extract_description` (its body reads
`self.metadata`, the soup and `self.page_url` but assigns none of the
cached fields). -/
def extract_description_state (jsonLd ogp : List (String × String)) (soup : Node)
    (st : ExtState) : ExtState :=
  ensurePageUrl jsonLd ogp soup st

/-- The state effect of `extract_language` (same shape). -/
def extract_language_state (jsonLd ogp : List (String × String)) (soup : Node)
    (st : ExtState) : ExtState :=
  ensurePageUrl jsonLd ogp soup st

/-- The state effect of `extract_keywords` (same shape). -/
def extract_keywords_state (jsonLd ogp : List (String × String)) (soup : Node)
    (st : ExtState) : ExtState :=
  ensurePageUrl jsonLd ogp soup st

/-- The state effect of `extract_timestamps` (the value computation is
`extract_timestamps` above). -/
def extract_timestamps_state (jsonLd ogp : List (String × String)) (soup : Node)
    (st : ExtState) : ExtState :=
  ensurePageUrl jsonLd ogp soup st

/-- The state effect of `extract_title` (the value computation is
`extract_title` above). -/
def extract_title_state (jsonLd ogp : List (String × String)) (soup : Node)
    (st : ExtState) : ExtState :=
  ensurePageUrl jsonLd ogp soup st

/-- The state effect of `extract_authors`: the shared page-URL prelude,
then `set_base_tag` when `self.base_tag is None`, then `set_top_tag` when
`self.top_tag is None`; the rest of the method assigns none of the cached
fields. -/
def extract_authors_state (jsonLd ogp : List (String × String)) (t : Node)
    (st : ExtState) : Except PyErr ExtState :=
  match (match (ensurePageUrl jsonLd ogp t st).baseTag with
         | none => set_base_tag_state t (ensurePageUrl jsonLd ogp t st)
         | some _ => .ok (ensurePageUrl jsonLd ogp t st)) with
  | .error e => .error e
  | .ok st2 =>
    match st2.topTag with
    | none => set_top_tag_state t st2
    | some _ => .ok st2

/-! ### Supporting lemmas -/

mutual

theorem linkChars_le_totalChars :
    ∀ (n : Node) (inAnchor : Bool), linkChars inAnchor n ≤ totalChars n
  | .text _, _ => Nat.zero_le _
  | .comment _, _ => Nat.zero_le _
  | .elem nm a cs, inAnchor => by
    simp only [linkChars, totalChars]
    split
    · exact Nat.le_refl _
    · exact linkCharsList_le_totalCharsList cs

theorem linkCharsList_le_totalCharsList :
    ∀ cs : List Node, linkCharsList cs ≤ totalCharsList cs
  | [] => Nat.le_refl _
  | c :: cs => by
    simp only [linkCharsList, totalCharsList]
    exact Nat.add_le_add (linkChars_le_totalChars c false)
      (linkCharsList_le_totalCharsList cs)

end

theorem nodeAt_append (t : Node) (p q : DomPath) :
    nodeAt t (p ++ q) = (nodeAt t p).bind (fun n => nodeAt n q) := by
  induction p generalizing t with
  | nil => simp [nodeAt]
  | cons i p ih =>
    simp only [List.cons_append, nodeAt]
    cases t.children.get? i with
    | none => rfl
    | some c => exact ih c

theorem ancestorsOf_append_child (t : Node) (p : DomPath) (n : Node) (i : Nat)
    (hp : nodeAt t p = some n) :
    ancestorsOf t (p ++ [i]) = ancestorsOf t p ++ [n] := by
  induction p generalizing t with
  | nil =>
    simp only [nodeAt, Option.some.injEq] at hp
    subst hp
    simp only [List.nil_append, ancestorsOf]
    cases t.children.get? i <;> simp [ancestorsOf]
  | cons j p ih =>
    simp only [nodeAt] at hp
    simp only [List.cons_append, ancestorsOf]
    cases hc : t.children.get? j with
    | none => rw [hc] at hp; cases hp
    | some c =>
      rw [hc] at hp
      simp [ih c hp]

theorem ancestorNames_append_child (t : Node) (p : DomPath) (n : Node) (i : Nat)
    (hp : nodeAt t p = some n) :
    ancestorNames t (p ++ [i]) = ancestorNames t p ++ [n.nameOf] := by
  unfold ancestorNames
  rw [ancestorsOf_append_child t p n i hp]
  simp

theorem mem_childEntriesFrom {p : DomPath} {anc : List String} {nm : String}
    {e : QEntry} :
    ∀ (i : Nat) (cs : List Node), e ∈ childEntriesFrom p anc nm i cs →
      ∃ j c, cs.get? j = some c ∧ e = (p ++ [i + j], anc ++ [nm], c)
  | _, [], h => absurd h (by simp [childEntriesFrom])
  | i, c :: cs, h => by
    simp only [childEntriesFrom, List.mem_cons] at h
    rcases h with h | h
    · exact ⟨0, c, by simp, by simpa using h⟩
    · obtain ⟨j, c', hg, he⟩ := mem_childEntriesFrom (i + 1) cs h
      refine ⟨j + 1, c', by simpa using hg, ?_⟩
      rw [he]
      have : i + 1 + j = i + (j + 1) := by omega
      rw [this]

theorem childEntries_WF (t : Node) (p : DomPath) (anc : List String)
    (nm : String) (a : List (String × String)) (cs : List Node)
    (hWF : entryWF t (p, anc, Node.elem nm a cs)) :
    ∀ e ∈ childEntries p anc nm cs, entryWF t e := by
  intro e he
  obtain ⟨j, c, hg, he'⟩ := mem_childEntriesFrom 0 cs (by simpa [childEntries] using he)
  obtain ⟨hnode, hanc⟩ := hWF
  dsimp only at hnode hanc
  subst he'
  constructor
  · dsimp only
    rw [nodeAt_append, hnode]
    rw [List.get?_eq_getElem?] at hg
    simp [nodeAt, Node.children, hg]
  · dsimp only
    rw [ancestorNames_append_child t p _ _ hnode, hanc]
    simp [Node.nameOf]

theorem queueSize_append (q q' : List QEntry) :
    queueSize (q ++ q') = queueSize q + queueSize q' := by
  simp [queueSize]

theorem queueSize_cons (e : QEntry) (q : List QEntry) :
    queueSize (e :: q) = Node.size e.2.2 + queueSize q := by
  simp [queueSize]

theorem queueSize_childEntriesFrom (p : DomPath) (anc : List String) (nm : String) :
    ∀ (i : Nat) (cs : List Node),
      queueSize (childEntriesFrom p anc nm i cs) = Node.sizeList cs
  | _, [] => by simp [childEntriesFrom, queueSize, Node.sizeList]
  | i, c :: cs => by
    rw [childEntriesFrom, queueSize_cons, queueSize_childEntriesFrom p anc nm (i + 1) cs]
    simp [Node.sizeList]

theorem Node.size_pos (n : Node) : 1 ≤ Node.size n := by
  cases n <;> simp only [Node.size] <;> omega

theorem hfLoop_mono :
    ∀ (fuel : Nat) (q : List QEntry) (hF fF : Bool) (r : List DomPath),
      ∃ s, hfLoop fuel q hF fF r = r ++ s
  | 0, _, _, _, r => ⟨[], by simp [hfLoop]⟩
  | _ + 1, [], _, _, r => ⟨[], by simp [hfLoop]⟩
  | fuel + 1, (p, anc, n) :: rest, hF, fF, r => by
    cases n with
    | text s =>
      simp only [hfLoop]
      by_cases hb : hF && fF
      · rw [if_pos hb]; exact ⟨[], by simp⟩
      · rw [if_neg hb]; exact hfLoop_mono fuel rest hF fF r
    | comment s =>
      simp only [hfLoop]
      by_cases hb : hF && fF
      · rw [if_pos hb]; exact ⟨[], by simp⟩
      · rw [if_neg hb]; exact hfLoop_mono fuel rest hF fF r
    | elem nm a cs =>
      simp only [hfLoop]
      by_cases hb : hF && fF
      · rw [if_pos hb]; exact ⟨[], by simp⟩
      · rw [if_neg hb]
        by_cases h1 : !hF && nm == "header"
        · rw [if_pos h1]
          by_cases hsec : sectioningFree anc
          · rw [if_pos hsec]
            obtain ⟨s, hs⟩ := hfLoop_mono fuel rest true fF (r ++ [p])
            exact ⟨[p] ++ s, by rw [hs, List.append_assoc]⟩
          · rw [if_neg hsec]
            exact hfLoop_mono fuel (rest ++ childEntries p anc nm cs) true fF r
        · rw [if_neg h1]
          by_cases h2 : !fF && nm == "footer"
          · rw [if_pos h2]
            by_cases hsec : sectioningFree anc
            · rw [if_pos hsec]
              obtain ⟨s, hs⟩ := hfLoop_mono fuel rest hF true (r ++ [p])
              exact ⟨[p] ++ s, by rw [hs, List.append_assoc]⟩
            · rw [if_neg hsec]
              exact hfLoop_mono fuel (rest ++ childEntries p anc nm cs) hF true r
          · rw [if_neg h2]
            exact hfLoop_mono fuel (rest ++ childEntries p anc nm cs) hF fF r

theorem queueWF_cons {t : Node} {e : QEntry} {q : List QEntry} :
    queueWF t (e :: q) ↔ entryWF t e ∧ queueWF t q := by
  constructor
  · intro h; exact ⟨h e (by simp), fun e' he' => h e' (by simp [he'])⟩
  · rintro ⟨h1, h2⟩ e' he'
    rcases List.mem_cons.mp he' with rfl | he'
    · exact h1
    · exact h2 e' he'

theorem queueWF_append {t : Node} {q q' : List QEntry} :
    queueWF t q → queueWF t q' → queueWF t (q ++ q') := by
  intro h1 h2 e he
  rcases List.mem_append.mp he with he | he
  · exact h1 e he
  · exact h2 e he

theorem hfLoop_added (t : Node) :
    ∀ (fuel : Nat) (q : List QEntry) (hF fF : Bool) (r : List DomPath),
      queueWF t q →
      ∀ pp ∈ hfLoop fuel q hF fF r, pp ∈ r ∨
        (hF = false ∧ nameAtIs t pp "header" = true ∧
          sectioningFree (ancestorNames t pp) = true) ∨
        (fF = false ∧ nameAtIs t pp "footer" = true ∧
          sectioningFree (ancestorNames t pp) = true)
  | 0, q, hF, fF, r => by
    intro _ pp hpp
    simp only [hfLoop] at hpp
    exact Or.inl hpp
  | _ + 1, [], hF, fF, r => by
    intro _ pp hpp
    simp only [hfLoop] at hpp
    exact Or.inl hpp
  | fuel + 1, (p, anc, n) :: rest, hF, fF, r => by
    intro hWF pp hpp
    obtain ⟨hWFe, hWFrest⟩ := queueWF_cons.mp hWF
    cases n with
    | text s =>
      simp only [hfLoop] at hpp
      by_cases hb : hF && fF
      · rw [if_pos hb] at hpp; exact Or.inl hpp
      · rw [if_neg hb] at hpp
        exact hfLoop_added t fuel rest hF fF r hWFrest pp hpp
    | comment s =>
      simp only [hfLoop] at hpp
      by_cases hb : hF && fF
      · rw [if_pos hb] at hpp; exact Or.inl hpp
      · rw [if_neg hb] at hpp
        exact hfLoop_added t fuel rest hF fF r hWFrest pp hpp
    | elem nm a cs =>
      have hWFkids := childEntries_WF t p anc nm a cs hWFe
      have hWFnext : queueWF t (rest ++ childEntries p anc nm cs) :=
        queueWF_append hWFrest hWFkids
      simp only [hfLoop] at hpp
      by_cases hb : hF && fF
      · rw [if_pos hb] at hpp; exact Or.inl hpp
      · rw [if_neg hb] at hpp
        by_cases h1 : !hF && nm == "header"
        · rw [if_pos h1] at hpp
          have hFfalse : hF = false := by
            rcases Bool.and_eq_true .. |>.mp h1 with ⟨ha, _⟩
            simpa using ha
          have hnm : nm = "header" := by
            rcases Bool.and_eq_true .. |>.mp h1 with ⟨_, hb'⟩
            exact eq_of_beq hb'
          by_cases hsec : sectioningFree anc
          · rw [if_pos hsec] at hpp
            rcases hfLoop_added t fuel rest true fF (r ++ [p]) hWFrest pp hpp with
              hmem | ⟨hcontra, _⟩ | hfoot
            · rcases List.mem_append.mp hmem with hmem | hmem
              · exact Or.inl hmem
              · have hpp_eq : pp = p := by simpa using hmem
                subst hpp_eq
                refine Or.inr (Or.inl ⟨hFfalse, ?_, ?_⟩)
                · unfold nameAtIs
                  rw [hWFe.1]
                  simp [Node.isElem, Node.nameOf, hnm]
                · rw [← hWFe.2]; exact hsec
            · cases hcontra
            · exact Or.inr (Or.inr hfoot)
          · rw [if_neg hsec] at hpp
            rcases hfLoop_added t fuel (rest ++ childEntries p anc nm cs) true fF r
                hWFnext pp hpp with hmem | ⟨hcontra, _⟩ | hfoot
            · exact Or.inl hmem
            · cases hcontra
            · exact Or.inr (Or.inr hfoot)
        · rw [if_neg h1] at hpp
          by_cases h2 : !fF && nm == "footer"
          · rw [if_pos h2] at hpp
            have hFfalse : fF = false := by
              rcases Bool.and_eq_true .. |>.mp h2 with ⟨ha, _⟩
              simpa using ha
            have hnm : nm = "footer" := by
              rcases Bool.and_eq_true .. |>.mp h2 with ⟨_, hb'⟩
              exact eq_of_beq hb'
            by_cases hsec : sectioningFree anc
            · rw [if_pos hsec] at hpp
              rcases hfLoop_added t fuel rest hF true (r ++ [p]) hWFrest pp hpp with
                hmem | hhead | ⟨hcontra, _⟩
              · rcases List.mem_append.mp hmem with hmem | hmem
                · exact Or.inl hmem
                · have hpp_eq : pp = p := by simpa using hmem
                  subst hpp_eq
                  refine Or.inr (Or.inr ⟨hFfalse, ?_, ?_⟩)
                  · unfold nameAtIs
                    rw [hWFe.1]
                    simp [Node.isElem, Node.nameOf, hnm]
                  · rw [← hWFe.2]; exact hsec
              · exact Or.inr (Or.inl hhead)
              · cases hcontra
            · rw [if_neg hsec] at hpp
              rcases hfLoop_added t fuel (rest ++ childEntries p anc nm cs) hF true r
                  hWFnext pp hpp with hmem | hhead | ⟨hcontra, _⟩
              · exact Or.inl hmem
              · exact Or.inr (Or.inl hhead)
              · cases hcontra
          · rw [if_neg h2] at hpp
            exact hfLoop_added t fuel (rest ++ childEntries p anc nm cs) hF fF r
              hWFnext pp hpp

theorem hfLoop_countH (t : Node) :
    ∀ (fuel : Nat) (q : List QEntry) (hF fF : Bool) (r : List DomPath),
      queueWF t q →
      ((hfLoop fuel q hF fF r).filter (fun pp => nameAtIs t pp "header")).length ≤
        (r.filter (fun pp => nameAtIs t pp "header")).length + (if hF then 0 else 1)
  | 0, q, hF, fF, r => by
    intro _
    simp only [hfLoop]
    split <;> omega
  | _ + 1, [], hF, fF, r => by
    intro _
    simp only [hfLoop]
    split <;> omega
  | fuel + 1, (p, anc, n) :: rest, hF, fF, r => by
    intro hWF
    obtain ⟨hWFe, hWFrest⟩ := queueWF_cons.mp hWF
    cases n with
    | text s =>
      simp only [hfLoop]
      by_cases hb : hF && fF
      · rw [if_pos hb]; split <;> omega
      · rw [if_neg hb]; exact hfLoop_countH t fuel rest hF fF r hWFrest
    | comment s =>
      simp only [hfLoop]
      by_cases hb : hF && fF
      · rw [if_pos hb]; split <;> omega
      · rw [if_neg hb]; exact hfLoop_countH t fuel rest hF fF r hWFrest
    | elem nm a cs =>
      have hWFnext : queueWF t (rest ++ childEntries p anc nm cs) :=
        queueWF_append hWFrest (childEntries_WF t p anc nm a cs hWFe)
      simp only [hfLoop]
      by_cases hb : hF && fF
      · rw [if_pos hb]; split <;> omega
      · rw [if_neg hb]
        by_cases h1 : !hF && nm == "header"
        · rw [if_pos h1]
          have hFfalse : hF = false := by
            rcases Bool.and_eq_true .. |>.mp h1 with ⟨ha, _⟩
            simpa using ha
          have hnm : nm = "header" := by
            rcases Bool.and_eq_true .. |>.mp h1 with ⟨_, hb'⟩
            exact eq_of_beq hb'
          have hpH : nameAtIs t p "header" = true := by
            unfold nameAtIs
            rw [hWFe.1]
            simp [Node.isElem, Node.nameOf, hnm]
          by_cases hsec : sectioningFree anc
          · rw [if_pos hsec]
            have hrec := hfLoop_countH t fuel rest true fF (r ++ [p]) hWFrest
            rw [List.filter_append, List.length_append] at hrec
            simp only [List.filter_cons, List.filter_nil, hpH, if_true] at hrec
            simp only [hFfalse, Bool.false_eq_true, if_false, List.length_cons,
              List.length_nil] at hrec ⊢
            omega
          · rw [if_neg hsec]
            have hrec := hfLoop_countH t fuel (rest ++ childEntries p anc nm cs)
              true fF r hWFnext
            simp only [if_true] at hrec
            simp only [hFfalse, Bool.false_eq_true, if_false]
            omega
        · rw [if_neg h1]
          by_cases h2 : !fF && nm == "footer"
          · rw [if_pos h2]
            have hnm : nm = "footer" := by
              rcases Bool.and_eq_true .. |>.mp h2 with ⟨_, hb'⟩
              exact eq_of_beq hb'
            have hpH : nameAtIs t p "header" = false := by
              unfold nameAtIs
              rw [hWFe.1]
              simp [Node.isElem, Node.nameOf, hnm]
            by_cases hsec : sectioningFree anc
            · rw [if_pos hsec]
              have hrec := hfLoop_countH t fuel rest hF true (r ++ [p]) hWFrest
              rw [List.filter_append, List.length_append] at hrec
              simp only [List.filter_cons, List.filter_nil, hpH] at hrec
              simp only [Bool.false_eq_true, if_false, List.length_nil] at hrec
              omega
            · rw [if_neg hsec]
              exact hfLoop_countH t fuel (rest ++ childEntries p anc nm cs) hF true r
                hWFnext
          · rw [if_neg h2]
            exact hfLoop_countH t fuel (rest ++ childEntries p anc nm cs) hF fF r
              hWFnext

theorem hfLoop_countF (t : Node) :
    ∀ (fuel : Nat) (q : List QEntry) (hF fF : Bool) (r : List DomPath),
      queueWF t q →
      ((hfLoop fuel q hF fF r).filter (fun pp => nameAtIs t pp "footer")).length ≤
        (r.filter (fun pp => nameAtIs t pp "footer")).length + (if fF then 0 else 1)
  | 0, q, hF, fF, r => by
    intro _
    simp only [hfLoop]
    split <;> omega
  | _ + 1, [], hF, fF, r => by
    intro _
    simp only [hfLoop]
    split <;> omega
  | fuel + 1, (p, anc, n) :: rest, hF, fF, r => by
    intro hWF
    obtain ⟨hWFe, hWFrest⟩ := queueWF_cons.mp hWF
    cases n with
    | text s =>
      simp only [hfLoop]
      by_cases hb : hF && fF
      · rw [if_pos hb]; split <;> omega
      · rw [if_neg hb]; exact hfLoop_countF t fuel rest hF fF r hWFrest
    | comment s =>
      simp only [hfLoop]
      by_cases hb : hF && fF
      · rw [if_pos hb]; split <;> omega
      · rw [if_neg hb]; exact hfLoop_countF t fuel rest hF fF r hWFrest
    | elem nm a cs =>
      have hWFnext : queueWF t (rest ++ childEntries p anc nm cs) :=
        queueWF_append hWFrest (childEntries_WF t p anc nm a cs hWFe)
      simp only [hfLoop]
      by_cases hb : hF && fF
      · rw [if_pos hb]; split <;> omega
      · rw [if_neg hb]
        by_cases h1 : !hF && nm == "header"
        · rw [if_pos h1]
          have hnm : nm = "header" := by
            rcases Bool.and_eq_true .. |>.mp h1 with ⟨_, hb'⟩
            exact eq_of_beq hb'
          have hpF : nameAtIs t p "footer" = false := by
            unfold nameAtIs
            rw [hWFe.1]
            simp [Node.isElem, Node.nameOf, hnm]
          by_cases hsec : sectioningFree anc
          · rw [if_pos hsec]
            have hrec := hfLoop_countF t fuel rest true fF (r ++ [p]) hWFrest
            rw [List.filter_append, List.length_append] at hrec
            simp only [List.filter_cons, List.filter_nil, hpF] at hrec
            simp only [Bool.false_eq_true, if_false, List.length_nil] at hrec
            omega
          · rw [if_neg hsec]
            exact hfLoop_countF t fuel (rest ++ childEntries p anc nm cs) true fF r
              hWFnext
        · rw [if_neg h1]
          by_cases h2 : !fF && nm == "footer"
          · rw [if_pos h2]
            have hFfalse : fF = false := by
              rcases Bool.and_eq_true .. |>.mp h2 with ⟨ha, _⟩
              simpa using ha
            have hnm : nm = "footer" := by
              rcases Bool.and_eq_true .. |>.mp h2 with ⟨_, hb'⟩
              exact eq_of_beq hb'
            have hpF : nameAtIs t p "footer" = true := by
              unfold nameAtIs
              rw [hWFe.1]
              simp [Node.isElem, Node.nameOf, hnm]
            by_cases hsec : sectioningFree anc
            · rw [if_pos hsec]
              have hrec := hfLoop_countF t fuel rest hF true (r ++ [p]) hWFrest
              rw [List.filter_append, List.length_append] at hrec
              simp only [List.filter_cons, List.filter_nil, hpF, if_true] at hrec
              simp only [hFfalse, Bool.false_eq_true, if_false, List.length_cons,
                List.length_nil] at hrec ⊢
              omega
            · rw [if_neg hsec]
              have hrec := hfLoop_countF t fuel (rest ++ childEntries p anc nm cs)
                hF true r hWFnext
              simp only [if_true] at hrec
              simp only [hFfalse, Bool.false_eq_true, if_false]
              omega
          · rw [if_neg h2]
            exact hfLoop_countF t fuel (rest ++ childEntries p anc nm cs) hF fF r
              hWFnext

theorem hfLoop_none :
    ∀ (fuel : Nat) (q : List QEntry) (hF fF : Bool) (r : List DomPath),
      bfsFindHF fuel q = none → hfLoop fuel q hF fF r = r
  | 0, _, _, _, _ => by intro _; simp [hfLoop]
  | _ + 1, [], _, _, _ => by intro _; simp [hfLoop]
  | fuel + 1, (p, anc, n) :: rest, hF, fF, r => by
    intro hnone
    cases n with
    | text s =>
      simp only [bfsFindHF] at hnone
      simp only [hfLoop]
      split
      · rfl
      · exact hfLoop_none fuel rest hF fF r hnone
    | comment s =>
      simp only [bfsFindHF] at hnone
      simp only [hfLoop]
      split
      · rfl
      · exact hfLoop_none fuel rest hF fF r hnone
    | elem nm a cs =>
      simp only [bfsFindHF] at hnone
      by_cases hname : (nm == "header" || nm == "footer") = true
      · rw [if_pos hname] at hnone; cases hnone
      · rw [if_neg hname] at hnone
        have hnh : (nm == "header") = false := by
          rcases Bool.or_eq_false_iff.mp (Bool.not_eq_true _ |>.mp hname) with ⟨h1, _⟩
          exact h1
        have hnf : (nm == "footer") = false := by
          rcases Bool.or_eq_false_iff.mp (Bool.not_eq_true _ |>.mp hname) with ⟨_, h2⟩
          exact h2
        simp only [hfLoop, hnh, hnf, Bool.and_false, Bool.false_eq_true, if_false]
        split
        · rfl
        · exact hfLoop_none fuel (rest ++ childEntries p anc nm cs) hF fF r hnone

theorem hfLoop_hit_header_free :
    ∀ (fuel : Nat) (q : List QEntry) (r : List DomPath) (p : DomPath)
      (anc : List String),
      bfsFindHF fuel q = some (p, anc, "header") → sectioningFree anc = true →
      p ∈ hfLoop fuel q false false r
  | 0, _, _, _, _ => by intro h _; cases h
  | _ + 1, [], _, _, _ => by intro h _; cases h
  | fuel + 1, (p0, anc0, n) :: rest, r, p, anc => by
    intro hhit hsec
    cases n with
    | text s =>
      simp only [bfsFindHF] at hhit
      simp only [hfLoop, Bool.and_false, Bool.false_eq_true, if_false]
      exact hfLoop_hit_header_free fuel rest r p anc hhit hsec
    | comment s =>
      simp only [bfsFindHF] at hhit
      simp only [hfLoop, Bool.and_false, Bool.false_eq_true, if_false]
      exact hfLoop_hit_header_free fuel rest r p anc hhit hsec
    | elem nm a cs =>
      simp only [bfsFindHF] at hhit
      by_cases hname : (nm == "header" || nm == "footer") = true
      · rw [if_pos hname] at hhit
        injection hhit with hhit
        simp only [Prod.mk.injEq] at hhit
        obtain ⟨rfl, rfl, rfl⟩ := hhit
        simp only [hfLoop, Bool.and_false, Bool.false_eq_true, if_false]
        have hh : (!false && "header" == "header") = true := by decide
        rw [if_pos hh, if_pos hsec]
        obtain ⟨s, hs⟩ := hfLoop_mono fuel rest true false (r ++ [p0])
        rw [hs]
        simp
      · rw [if_neg hname] at hhit
        have hnh : (nm == "header") = false := by
          rcases Bool.or_eq_false_iff.mp (Bool.not_eq_true _ |>.mp hname) with ⟨h1, _⟩
          exact h1
        have hnf : (nm == "footer") = false := by
          rcases Bool.or_eq_false_iff.mp (Bool.not_eq_true _ |>.mp hname) with ⟨_, h2⟩
          exact h2
        simp only [hfLoop, hnh, hnf, Bool.and_false, Bool.false_eq_true, if_false]
        exact hfLoop_hit_header_free fuel (rest ++ childEntries p0 anc0 nm cs) r p anc
          hhit hsec

theorem hfLoop_hit_header_kept (t : Node) :
    ∀ (fuel : Nat) (q : List QEntry) (r : List DomPath) (p : DomPath)
      (anc : List String),
      queueWF t q →
      bfsFindHF fuel q = some (p, anc, "header") → sectioningFree anc = false →
      ∀ pp ∈ hfLoop fuel q false false r, pp ∈ r ∨ nameAtIs t pp "header" = false
  | 0, _, _, _, _ => by intro _ h _; cases h
  | _ + 1, [], _, _, _ => by intro _ h _; cases h
  | fuel + 1, (p0, anc0, n) :: rest, r, p, anc => by
    intro hWF hhit hsec
    obtain ⟨hWFe, hWFrest⟩ := queueWF_cons.mp hWF
    cases n with
    | text s =>
      simp only [bfsFindHF] at hhit
      simp only [hfLoop, Bool.and_false, Bool.false_eq_true, if_false]
      exact hfLoop_hit_header_kept t fuel rest r p anc hWFrest hhit hsec
    | comment s =>
      simp only [bfsFindHF] at hhit
      simp only [hfLoop, Bool.and_false, Bool.false_eq_true, if_false]
      exact hfLoop_hit_header_kept t fuel rest r p anc hWFrest hhit hsec
    | elem nm a cs =>
      have hWFnext : queueWF t (rest ++ childEntries p0 anc0 nm cs) :=
        queueWF_append hWFrest (childEntries_WF t p0 anc0 nm a cs hWFe)
      simp only [bfsFindHF] at hhit
      by_cases hname : (nm == "header" || nm == "footer") = true
      · rw [if_pos hname] at hhit
        injection hhit with hhit
        simp only [Prod.mk.injEq] at hhit
        obtain ⟨rfl, rfl, rfl⟩ := hhit
        simp only [hfLoop, Bool.and_false, Bool.false_eq_true, if_false]
        have hh : (!false && "header" == "header") = true := by decide
        rw [if_pos hh, if_neg (by simp [hsec])]
        intro pp hpp
        rcases hfLoop_added t fuel (rest ++ childEntries p0 anc0 "header" cs)
            true false r hWFnext pp hpp with hmem | ⟨hcontra, _⟩ | ⟨_, hfoot, _⟩
        · exact Or.inl hmem
        · cases hcontra
        · right
          unfold nameAtIs at hfoot ⊢
          cases hnode : nodeAt t pp with
          | none => rfl
          | some m =>
            rw [hnode] at hfoot
            simp only [Bool.and_eq_true, beq_iff_eq] at hfoot
            simp [hfoot.2]
      · rw [if_neg hname] at hhit
        have hnh : (nm == "header") = false := by
          rcases Bool.or_eq_false_iff.mp (Bool.not_eq_true _ |>.mp hname) with ⟨h1, _⟩
          exact h1
        have hnf : (nm == "footer") = false := by
          rcases Bool.or_eq_false_iff.mp (Bool.not_eq_true _ |>.mp hname) with ⟨_, h2⟩
          exact h2
        simp only [hfLoop, hnh, hnf, Bool.and_false, Bool.false_eq_true, if_false]
        exact hfLoop_hit_header_kept t fuel (rest ++ childEntries p0 anc0 nm cs) r p anc
          hWFnext hhit hsec

theorem hfLoop_hit_footer_free :
    ∀ (fuel : Nat) (q : List QEntry) (r : List DomPath) (p : DomPath)
      (anc : List String),
      bfsFindHF fuel q = some (p, anc, "footer") → sectioningFree anc = true →
      p ∈ hfLoop fuel q false false r
  | 0, _, _, _, _ => by intro h _; cases h
  | _ + 1, [], _, _, _ => by intro h _; cases h
  | fuel + 1, (p0, anc0, n) :: rest, r, p, anc => by
    intro hhit hsec
    cases n with
    | text s =>
      simp only [bfsFindHF] at hhit
      simp only [hfLoop, Bool.and_false, Bool.false_eq_true, if_false]
      exact hfLoop_hit_footer_free fuel rest r p anc hhit hsec
    | comment s =>
      simp only [bfsFindHF] at hhit
      simp only [hfLoop, Bool.and_false, Bool.false_eq_true, if_false]
      exact hfLoop_hit_footer_free fuel rest r p anc hhit hsec
    | elem nm a cs =>
      simp only [bfsFindHF] at hhit
      by_cases hname : (nm == "header" || nm == "footer") = true
      · rw [if_pos hname] at hhit
        injection hhit with hhit
        simp only [Prod.mk.injEq] at hhit
        obtain ⟨rfl, rfl, rfl⟩ := hhit
        simp only [hfLoop, Bool.and_false, Bool.false_eq_true, if_false]
        have hh1 : (!false && "footer" == "header") = false := by decide
        have hh2 : (!false && "footer" == "footer") = true := by decide
        rw [if_neg (by simp [hh1]), if_pos hh2, if_pos hsec]
        obtain ⟨s, hs⟩ := hfLoop_mono fuel rest false true (r ++ [p0])
        rw [hs]
        simp
      · rw [if_neg hname] at hhit
        have hnh : (nm == "header") = false := by
          rcases Bool.or_eq_false_iff.mp (Bool.not_eq_true _ |>.mp hname) with ⟨h1, _⟩
          exact h1
        have hnf : (nm == "footer") = false := by
          rcases Bool.or_eq_false_iff.mp (Bool.not_eq_true _ |>.mp hname) with ⟨_, h2⟩
          exact h2
        simp only [hfLoop, hnh, hnf, Bool.and_false, Bool.false_eq_true, if_false]
        exact hfLoop_hit_footer_free fuel (rest ++ childEntries p0 anc0 nm cs) r p anc
          hhit hsec

theorem hfLoop_hit_footer_kept (t : Node) :
    ∀ (fuel : Nat) (q : List QEntry) (r : List DomPath) (p : DomPath)
      (anc : List String),
      queueWF t q →
      bfsFindHF fuel q = some (p, anc, "footer") → sectioningFree anc = false →
      ∀ pp ∈ hfLoop fuel q false false r, pp ∈ r ∨ nameAtIs t pp "footer" = false
  | 0, _, _, _, _ => by intro _ h _; cases h
  | _ + 1, [], _, _, _ => by intro _ h _; cases h
  | fuel + 1, (p0, anc0, n) :: rest, r, p, anc => by
    intro hWF hhit hsec
    obtain ⟨hWFe, hWFrest⟩ := queueWF_cons.mp hWF
    cases n with
    | text s =>
      simp only [bfsFindHF] at hhit
      simp only [hfLoop, Bool.and_false, Bool.false_eq_true, if_false]
      exact hfLoop_hit_footer_kept t fuel rest r p anc hWFrest hhit hsec
    | comment s =>
      simp only [bfsFindHF] at hhit
      simp only [hfLoop, Bool.and_false, Bool.false_eq_true, if_false]
      exact hfLoop_hit_footer_kept t fuel rest r p anc hWFrest hhit hsec
    | elem nm a cs =>
      have hWFnext : queueWF t (rest ++ childEntries p0 anc0 nm cs) :=
        queueWF_append hWFrest (childEntries_WF t p0 anc0 nm a cs hWFe)
      simp only [bfsFindHF] at hhit
      by_cases hname : (nm == "header" || nm == "footer") = true
      · rw [if_pos hname] at hhit
        injection hhit with hhit
        simp only [Prod.mk.injEq] at hhit
        obtain ⟨rfl, rfl, rfl⟩ := hhit
        simp only [hfLoop, Bool.and_false, Bool.false_eq_true, if_false]
        have hh1 : (!false && "footer" == "header") = false := by decide
        have hh2 : (!false && "footer" == "footer") = true := by decide
        rw [if_neg (by simp [hh1]), if_pos hh2, if_neg (by simp [hsec])]
        intro pp hpp
        rcases hfLoop_added t fuel (rest ++ childEntries p0 anc0 "footer" cs)
            false true r hWFnext pp hpp with hmem | ⟨_, hhead, _⟩ | ⟨hcontra, _⟩
        · exact Or.inl hmem
        · right
          unfold nameAtIs at hhead ⊢
          cases hnode : nodeAt t pp with
          | none => rfl
          | some m =>
            rw [hnode] at hhead
            simp only [Bool.and_eq_true, beq_iff_eq] at hhead
            simp [hhead.2]
        · cases hcontra
      · rw [if_neg hname] at hhit
        have hnh : (nm == "header") = false := by
          rcases Bool.or_eq_false_iff.mp (Bool.not_eq_true _ |>.mp hname) with ⟨h1, _⟩
          exact h1
        have hnf : (nm == "footer") = false := by
          rcases Bool.or_eq_false_iff.mp (Bool.not_eq_true _ |>.mp hname) with ⟨_, h2⟩
          exact h2
        simp only [hfLoop, hnh, hnf, Bool.and_false, Bool.false_eq_true, if_false]
        exact hfLoop_hit_footer_kept t fuel (rest ++ childEntries p0 anc0 nm cs) r p anc
          hWFnext hhit hsec

theorem pyMaxBy_mem {α : Type} (f : α → Nat) (b : α) (xs : List α) :
    pyMaxBy f b xs ∈ b :: xs := by
  induction xs generalizing b with
  | nil => simp [pyMaxBy]
  | cons x xs ih =>
    simp only [pyMaxBy]
    split
    · have h := ih x
      simp only [List.mem_cons] at h ⊢
      tauto
    · have h := ih b
      simp only [List.mem_cons] at h ⊢
      tauto

theorem le_pyMaxBy {α : Type} (f : α → Nat) (b : α) (xs : List α) :
    ∀ y ∈ b :: xs, f y ≤ f (pyMaxBy f b xs) := by
  induction xs generalizing b with
  | nil => intro y hy; simp at hy; simp [pyMaxBy, hy]
  | cons x xs ih =>
    intro y hy
    simp only [List.mem_cons] at hy
    simp only [pyMaxBy]
    by_cases hgt : f x > f b
    · rw [if_pos hgt]
      rcases hy with heq | heq | hmem
      · rw [heq]; exact le_trans (le_of_lt hgt) (ih x x (by simp))
      · rw [heq]; exact ih x x (by simp)
      · exact ih x y (by simp [hmem])
    · rw [if_neg hgt]
      rcases hy with heq | heq | hmem
      · rw [heq]; exact ih b b (by simp)
      · rw [heq]; exact le_trans (Nat.le_of_not_lt hgt) (ih b b (by simp))
      · exact ih b y (by simp [hmem])

theorem setBaseTagGo_append (t : Node) (tc : Nat) (gs gs' : List (List SimpleSel)) :
    setBaseTagGo t tc (gs ++ gs') =
      match setBaseTagGo t tc gs with
      | .error .valueError => setBaseTagGo t tc gs'
      | r => r := by
  induction gs with
  | nil => simp [setBaseTagGo]
  | cons g gs ih =>
    simp only [List.cons_append, setBaseTagGo]
    cases h : selectAll t [] g with
    | nil => exact ih
    | cons c cs =>
      by_cases h0 : tc = 0
      · simp [h0]
      · simp only [h0, if_false]
        split
        · rfl
        · exact ih

theorem setBaseTagGo_error_is_valueError (t : Node) (tc : Nat) (htc : tc ≠ 0) :
    ∀ (gs : List (List SimpleSel)) (e : PyErr),
      setBaseTagGo t tc gs = .error e → e = .valueError := by
  intro gs
  induction gs with
  | nil => intro e he; simpa [setBaseTagGo] using he.symm
  | cons g gs ih =>
    intro e he
    simp only [setBaseTagGo] at he
    rcases hsel : selectAll t [] g with _ | ⟨c, cs⟩ <;> rw [hsel] at he
    · exact ih e he
    · simp only [htc, if_false] at he
      split at he
      · exact absurd he (by simp)
      · exact ih e he

theorem body_in_selectAll (t : Node) (bp : DomPath) (bn : Node)
    (hb : firstBody t = some (bp, bn)) :
    (bp, bn) ∈ selectAll t [] [bareSel "body"] := by
  have hmem : (bp, bn) ∈ allNodes t := List.mem_of_find?_eq_some hb
  have hpred := List.find?_some hb
  simp only [Bool.and_eq_true] at hpred
  unfold selectAll
  simp only [nodeAt]
  rw [List.mem_filter]
  refine ⟨hmem, ?_⟩
  simp [matchesSel, bareSel, hpred.1, hpred.2]

theorem setBaseTagGo_zero (t : Node) (gs : List (List SimpleSel)) :
    setBaseTagGo t 0 gs = .error .valueError ∨
    setBaseTagGo t 0 gs = .error .zeroDivisionError := by
  induction gs with
  | nil => left; rfl
  | cons g gs ih =>
    simp only [setBaseTagGo]
    rcases selectAll t [] g with _ | ⟨c, cs⟩
    · exact ih
    · right; rfl

theorem setBaseTagGo_bodyGroup (t : Node) (bp : DomPath) (bn : Node)
    (hb : firstBody t = some (bp, bn)) (htc : 0 < totalChars bn) :
    ∃ p, setBaseTagGo t (totalChars bn) [[bareSel "body"]] = .ok p := by
  have hsel : (bp, bn) ∈ selectAll t [] [bareSel "body"] := body_in_selectAll t bp bn hb
  rcases hcase : selectAll t [] [bareSel "body"] with _ | ⟨c, cs⟩
  · rw [hcase] at hsel; exact absurd hsel (by simp)
  · rw [hcase] at hsel
    refine ⟨(pyMaxBy (fun pn => totalChars pn.2) c cs).1, ?_⟩
    simp only [setBaseTagGo, hcase]
    have hge := le_pyMaxBy (fun pn => totalChars pn.2) c cs (bp, bn) hsel
    simp only [Nat.pos_iff_ne_zero.mp htc, if_false]
    have : 5 * totalChars (pyMaxBy (fun pn => totalChars pn.2) c cs).2 >
        2 * totalChars bn := by
      have h5 : 5 * totalChars bn ≤
          5 * totalChars (pyMaxBy (fun pn => totalChars pn.2) c cs).2 :=
        Nat.mul_le_mul_left 5 hge
      omega
    simp [this]

mutual

theorem decomposeTags_idem (names : List String) :
    ∀ t : Node, decomposeTags names (decomposeTags names t) = decomposeTags names t
  | .elem nm a cs => by
    simp only [decomposeTags]
    rw [decomposeTagsList_idem names cs]
  | .text s => rfl
  | .comment s => rfl

theorem decomposeTagsList_idem (names : List String) :
    ∀ cs : List Node,
      decomposeTagsList names (decomposeTagsList names cs) = decomposeTagsList names cs
  | [] => rfl
  | c :: cs => by
    simp only [decomposeTagsList]
    by_cases hc : (c.isElem && names.any (fun x => x == c.nameOf)) = true
    · rw [if_pos hc]
      exact decomposeTagsList_idem names cs
    · rw [if_neg hc]
      cases c with
      | elem nm a cc =>
        simp only [decomposeTags, decomposeTagsList]
        simp only [Node.isElem, Node.nameOf, Bool.true_and] at hc ⊢
        rw [if_neg hc]
        rw [decomposeTagsList_idem names cc, decomposeTagsList_idem names cs]
      | text s =>
        simp only [decomposeTags, decomposeTagsList, Node.isElem, Bool.false_and,
          Bool.false_eq_true, if_false]
        rw [decomposeTagsList_idem names cs]
      | comment s =>
        simp only [decomposeTags, decomposeTagsList, Node.isElem, Bool.false_and,
          Bool.false_eq_true, if_false]
        rw [decomposeTagsList_idem names cs]

end

mutual

theorem decomposeComments_idem :
    ∀ t : Node, decomposeComments (decomposeComments t) = decomposeComments t
  | .elem nm a cs => by
    simp only [decomposeComments]
    rw [decomposeCommentsList_idem cs]
  | .text s => rfl
  | .comment s => rfl

theorem decomposeCommentsList_idem :
    ∀ cs : List Node,
      decomposeCommentsList (decomposeCommentsList cs) = decomposeCommentsList cs
  | [] => rfl
  | c :: cs => by
    simp only [decomposeCommentsList]
    cases c with
    | comment s => exact decomposeCommentsList_idem cs
    | elem nm a cc =>
      simp only [Node.isComment, Bool.false_eq_true, if_false, decomposeComments,
        decomposeCommentsList]
      rw [decomposeCommentsList_idem cc, decomposeCommentsList_idem cs]
    | text s =>
      simp only [Node.isComment, Bool.false_eq_true, if_false, decomposeComments,
        decomposeCommentsList]
      rw [decomposeCommentsList_idem cs]

end

theorem unwrapList_append (names : List String) (l1 l2 : List Node) :
    unwrapList names (l1 ++ l2) = unwrapList names l1 ++ unwrapList names l2 := by
  induction l1 with
  | nil => simp [unwrapList]
  | cons c l1 ih =>
    simp only [List.cons_append, unwrapList, List.append_eq]
    split
    · rw [ih, List.append_assoc]
    · rw [ih, List.cons_append]

mutual

theorem unwrapTags_idem (names : List String) :
    ∀ t : Node, unwrapTags names (unwrapTags names t) = unwrapTags names t
  | .elem nm a cs => by
    simp only [unwrapTags]
    rw [unwrapList_idem names cs]
  | .text s => rfl
  | .comment s => rfl

theorem unwrapList_idem (names : List String) :
    ∀ cs : List Node, unwrapList names (unwrapList names cs) = unwrapList names cs
  | [] => rfl
  | c :: cs => by
    simp only [unwrapList]
    by_cases hc : (c.isElem && names.any (fun x => x == c.nameOf)) = true
    · rw [if_pos hc, unwrapList_append]
      cases c with
      | elem nm a cc =>
        simp only [unwrapTags, Node.children]
        rw [unwrapList_idem names cc, unwrapList_idem names cs]
      | text s => simp [Node.isElem] at hc
      | comment s => simp [Node.isElem] at hc
    · rw [if_neg hc]
      simp only [unwrapList]
      have hc2 : ((unwrapTags names c).isElem &&
          names.any (fun x => x == (unwrapTags names c).nameOf)) = false := by
        cases c with
        | elem nm a cc =>
          simp only [unwrapTags, Node.isElem, Node.nameOf]
          simp only [Node.isElem, Node.nameOf] at hc
          exact Bool.not_eq_true _ |>.mp hc
        | text s => simp [unwrapTags, Node.isElem]
        | comment s => simp [unwrapTags, Node.isElem]
      rw [if_neg (by simp [hc2])]
      rw [unwrapTags_idem names c, unwrapList_idem names cs]

end

theorem replaceBreaksLoop_ok :
    ∀ (fuel : Nat) (t u : Node), replaceBreaksLoop fuel t = .ok u → rbStepTop u = none
  | 0, t, u => by intro h; cases h
  | fuel + 1, t, u => by
    intro h
    simp only [replaceBreaksLoop] at h
    cases hstep : rbStepTop t with
    | none => rw [hstep] at h; injection h with h; subst h; exact hstep
    | some r =>
      rw [hstep] at h
      cases r with
      | error e => cases h
      | ok t' => exact replaceBreaksLoop_ok fuel t' u h

theorem replaceBreaks_idem (t u : Node) (h : replaceBreaks t = .ok u) :
    replaceBreaks u = .ok u := by
  have hnone : rbStepTop u = none := replaceBreaksLoop_ok _ t u h
  unfold replaceBreaks replaceBreaksLoop
  rw [hnone]

theorem ldBelowUB_iff (t : Node) (p : DomPath) :
    ldBelowUB t p = true ↔ densityAt t p < (3 / 4 : ℚ) := by
  simp only [ldBelowUB, densityAt]
  rcases hn : nodeAt t p with _ | n
  · simp only [hn]
    norm_num
  · simp only [hn]
    rw [linkDensity]
    by_cases h0 : totalChars n = 0
    · rw [h0]
      norm_num
    · have hpos : 0 < totalChars n := Nat.pos_of_ne_zero h0
      rw [if_pos hpos]
      simp only [h0, decide_False, Bool.false_or, decide_eq_true_eq]
      rw [div_lt_div_iff (by exact_mod_cast hpos) (by norm_num : (0 : ℚ) < 4)]
      constructor
      · intro h
        have h' : (4 * linkChars (inAnchorCtx t p) n : ℚ) < 3 * totalChars n := by
          exact_mod_cast h
        linarith
      · intro h
        have h' : (4 * linkChars (inAnchorCtx t p) n : ℚ) < 3 * totalChars n := by
          linarith
        exact_mod_cast h'

mutual

theorem mem_descNode_extends (pfx : DomPath) (n : Node) :
    ∀ pn ∈ descNode pfx n, ∃ s, pn.1 = pfx ++ s ∧ s ≠ [] := by
  intro pn h
  cases n with
  | elem nm a cs => exact mem_descList_extends pfx 0 cs pn h
  | text s => simp [descNode] at h
  | comment s => simp [descNode] at h

theorem mem_descList_extends (pfx : DomPath) (i : Nat) (cs : List Node) :
    ∀ pn ∈ descList pfx i cs, ∃ s, pn.1 = pfx ++ s ∧ s ≠ [] := by
  intro pn h
  match cs with
  | [] => simp [descList] at h
  | c :: cs' =>
    simp only [descList] at h
    rcases List.mem_cons.mp h with hEq | hIn
    · subst hEq
      exact ⟨[i], rfl, by simp⟩
    · rcases List.mem_append.mp hIn with h1 | h2
      · obtain ⟨s, hs, hne⟩ := mem_descNode_extends (pfx ++ [i]) c pn h1
        exact ⟨[i] ++ s, by rw [hs, List.append_assoc], by simp⟩
      · exact mem_descList_extends pfx (i + 1) cs' pn h2

end

theorem mem_findAllNames_extends (t : Node) (base : DomPath) (names : List String) :
    ∀ pn ∈ findAllNames t base names, ∃ s, pn.1 = base ++ s ∧ s ≠ [] := by
  intro pn h
  simp only [findAllNames] at h
  rcases hb : nodeAt t base with _ | b
  · simp only [hb] at h
    exact absurd h (by simp)
  · simp only [hb] at h
    exact mem_descNode_extends base b pn (List.mem_filter.mp h).1

theorem prefixesAsc_append (a b : DomPath) :
    prefixesAsc (a ++ b) = prefixesAsc a ++ (prefixesAsc b).map (fun q => a ++ q) := by
  induction a with
  | nil => simp [prefixesAsc]
  | cons x a' ih =>
    simp only [List.cons_append, prefixesAsc, List.append_eq]
    rw [ih, List.map_append, List.map_map]
    simp [Function.comp_def]

theorem mem_prefixesAsc_of_append (a : DomPath) (c : Nat) (s : DomPath) :
    a ∈ prefixesAsc (a ++ c :: s) := by
  rw [prefixesAsc_append]
  refine List.mem_append.mpr (Or.inr ?_)
  exact List.mem_map.mpr ⟨[], by simp [prefixesAsc], by simp⟩

theorem getLastD_mem {α : Type} (l : List α) (d : α) (h : l ≠ []) :
    l.getLastD d ∈ l := by
  induction l generalizing d with
  | nil => exact absurd rfl h
  | cons a l' ih =>
    rw [List.getLastD_cons]
    cases l' with
    | nil => simp [List.getLastD]
    | cons b l'' => exact List.mem_cons_of_mem a (ih b (by simp))

theorem lcaLoop_above (t : Node) (bp : DomPath) (bn : Node)
    (hv : nodeAt t bp = some bn) :
    ∀ (L1 L2 : List DomPath) (others : List DomPath),
      (∀ pr ∈ L1, bp <+: pr) →
      (∀ q ∈ others, bp ∈ prefixesDesc q) →
      ∀ r, lcaLoop t (L1 ++ bp :: L2) others = some r → bp <+: r := by
  intro L1
  induction L1 with
  | nil =>
    intro L2 others _ h2 r hr
    simp only [List.nil_append, lcaLoop, hv] at hr
    have hf : others.filter (fun q => !(valueInParents t q bn)) = [] := by
      rw [List.filter_eq_nil]
      intro q hq
      have hvp : valueInParents t q bn = true := by
        rw [valueInParents, List.any_eq_true]
        exact ⟨bp, h2 q hq, by rw [hv]; simp⟩
      simp [hvp]
    rw [hf] at hr
    cases hr
    exact List.prefix_refl _
  | cons pr0 L1' ih =>
    intro L2 others h1 h2 r hr
    simp only [List.cons_append, lcaLoop] at hr
    rcases hn : nodeAt t pr0 with _ | pn0
    · simp only [hn] at hr
      exact Option.noConfusion hr
    · simp only [hn] at hr
      rcases hfil : others.filter (fun q => !(valueInParents t q pn0)) with _ | ⟨o, os⟩
      · rw [hfil] at hr
        cases hr
        exact h1 pr0 (List.mem_cons_self _ _)
      · rw [hfil] at hr
        refine ih L2 (o :: os) (fun pr h => h1 pr (List.mem_cons_of_mem _ h)) ?_ r hr
        intro q hq
        rw [← hfil] at hq
        exact h2 q (List.mem_filter.mp hq).1

theorem lca_above (t : Node) (bp : DomPath) (bn : Node)
    (hv : nodeAt t bp = some bn) (ps : List DomPath)
    (hms : ∀ q ∈ ps, ∃ s, q = bp ++ s ∧ s ≠ []) :
    ∀ r, lowestCommonAncestor t ps = some r → bp <+: r := by
  match ps with
  | [] =>
    intro r hr
    simp [lowestCommonAncestor] at hr
  | [p] =>
    intro r hr
    simp only [lowestCommonAncestor] at hr
    cases hr
    obtain ⟨s, hs, -⟩ := hms p (by simp)
    exact hs ▸ List.prefix_append _ _
  | p :: q :: rest =>
    intro r hr
    simp only [lowestCommonAncestor] at hr
    have hlast : (q :: rest).getLastD q ∈ p :: q :: rest :=
      List.mem_cons_of_mem _ (getLastD_mem _ _ (by simp))
    obtain ⟨s, hs, hne⟩ := hms _ hlast
    rcases s with _ | ⟨c, s'⟩
    · exact absurd rfl hne
    have hdec : prefixesDesc (bp ++ c :: s') =
        ((prefixesAsc s').map (fun q2 => bp ++ c :: q2)).reverse ++
          bp :: (prefixesAsc bp).reverse := by
      rw [prefixesDesc, prefixesAsc_append, List.reverse_append]
      simp only [prefixesAsc, List.map_cons, List.map_map, List.append_nil,
        List.reverse_cons, Function.comp_def]
      simp [List.append_assoc]
    rw [hs, hdec] at hr
    refine lcaLoop_above t bp bn hv _ _ _ ?_ ?_ r hr
    · intro pr hpr
      rw [List.mem_reverse] at hpr
      obtain ⟨q2, -, hq2⟩ := List.mem_map.mp hpr
      rw [← hq2]
      exact ⟨c :: q2, rfl⟩
    · intro q2 hq2
      have hq2' : q2 ∈ p :: q :: rest :=
        List.IsPrefix.subset (List.dropLast_prefix _) hq2
      obtain ⟨s2, hs2, hne2⟩ := hms q2 hq2'
      rcases s2 with _ | ⟨c2, s2'⟩
      · exact absurd rfl hne2
      rw [hs2, prefixesDesc, List.mem_reverse]
      exact mem_prefixesAsc_of_append bp c2 s2'

theorem candListOf_subset (t : Node) (curList : List DomPath) (cand : DomPath) :
    ∀ q ∈ candListOf t curList cand, q ∈ curList := by
  intro q hq
  exact (List.mem_filter.mp hq).1

theorem bestCandidate_sub (t : Node) (curList : List DomPath) :
    ∀ (cands : List DomPath) (best : Option (DomPath × List DomPath)) (bestSum : Nat),
      (∀ x xl, best = some (x, xl) → ∀ q ∈ xl, q ∈ curList) →
      ∀ cp cl, bestCandidate t curList cands best bestSum = some (cp, cl) →
        ∀ q ∈ cl, q ∈ curList := by
  intro cands
  induction cands with
  | nil =>
    intro best bestSum hbest cp cl hr
    simp only [bestCandidate] at hr
    exact hbest cp cl hr
  | cons c cs ih =>
    intro best bestSum hbest cp cl hr
    simp only [bestCandidate] at hr
    by_cases hgt : sumTc t (candListOf t curList c) > bestSum
    · rw [if_pos hgt] at hr
      refine ih _ _ ?_ cp cl hr
      intro x xl hx
      cases hx
      exact candListOf_subset t curList c
    · rw [if_neg hgt] at hr
      exact ih _ _ hbest cp cl hr

theorem bcaLoop_above (t : Node) (bp : DomPath) (bn : Node)
    (hv : nodeAt t bp = some bn) :
    ∀ (fuel : Nat) (current : DomPath) (curList : List DomPath),
      (∀ q ∈ curList, ∃ s, q = bp ++ s ∧ s ≠ []) →
      ∀ r, bcaLoop t fuel current curList = .ok (some r) → bp <+: r := by
  intro fuel
  induction fuel with
  | zero =>
    intro current curList _ r hr
    simp [bcaLoop] at hr
  | succ fuel ih =>
    intro current curList hms r hr
    simp only [bcaLoop] at hr
    rcases hd : distancesOf t current curList with e | ds
    · simp only [hd] at hr
      exact Except.noConfusion hr
    · simp only [hd] at hr
      by_cases hnear : ds.all (fun d => d ≤ 5) = true
      · rw [if_pos hnear] at hr
        have hl : lowestCommonAncestor t curList = some r := by
          injection hr
        exact lca_above t bp bn hv curList hms r hl
      · rw [if_neg hnear] at hr
        rcases hb : bestCandidate t curList (childPathsOf t current) none 0 with _ | ⟨cp, cl⟩
        · simp only [hb] at hr
          exact Except.noConfusion hr
        · simp only [hb] at hr
          refine ih cp cl ?_ r hr
          intro q hq
          exact hms q (bestCandidate_sub t curList _ none 0
            (by intro x xl hx; simp at hx) cp cl hb q hq)

theorem gbca_above (t : Node) (bp : DomPath) (bn : Node)
    (hv : nodeAt t bp = some bn) (ps : List DomPath)
    (hms : ∀ q ∈ ps, ∃ s, q = bp ++ s ∧ s ≠ []) :
    ∀ r, getBestCommonAncestor t ps = .ok (some r) → bp <+: r := by
  match ps with
  | [] =>
    intro r hr
    simp [getBestCommonAncestor] at hr
  | [p] =>
    intro r hr
    simp only [getBestCommonAncestor] at hr
    have hp : some p = some r := by injection hr
    cases hp
    obtain ⟨s, hs, -⟩ := hms p (by simp)
    exact hs ▸ List.prefix_append _ _
  | p :: q :: rest =>
    intro r hr
    simp only [getBestCommonAncestor] at hr
    rcases hg : lowestCommonAncestor t (p :: q :: rest) with _ | g
    · simp only [hg] at hr
      exact Except.noConfusion hr
    · simp only [hg] at hr
      exact bcaLoop_above t bp bn hv _ g _ hms r hr

theorem mem_addGroup (P : DomPath → Prop) (key : List String) (p : DomPath) (tc : Nat) :
    ∀ (acc : List (List String × List DomPath × Nat)),
      (∀ g ∈ acc, ∀ q ∈ g.2.1, P q) → P p →
      ∀ g ∈ addGroup key p tc acc, ∀ q ∈ g.2.1, P q := by
  intro acc
  induction acc with
  | nil =>
    intro _ hp g hg q hq
    simp only [addGroup, List.mem_singleton] at hg
    subst hg
    rw [List.mem_singleton.mp hq]
    exact hp
  | cons a acc' ih =>
    intro hacc hp g hg q hq
    obtain ⟨k0, ps0, s0⟩ := a
    simp only [addGroup] at hg
    by_cases hk : k0 = key
    · rw [if_pos hk] at hg
      rcases List.mem_cons.mp hg with hEq | hIn
      · subst hEq
        rcases List.mem_append.mp hq with h1 | h2
        · exact hacc (k0, ps0, s0) (by simp) q h1
        · rw [List.mem_singleton.mp h2]
          exact hp
      · exact hacc g (List.mem_cons_of_mem _ hIn) q hq
    · rw [if_neg hk] at hg
      rcases List.mem_cons.mp hg with hEq | hIn
      · subst hEq
        exact hacc (k0, ps0, s0) (by simp) q hq
      · exact ih (fun g2 h2 => hacc g2 (List.mem_cons_of_mem _ h2)) hp g hIn q hq

theorem mem_buildGroups (t : Node) (tags : List (DomPath × Node)) (P : DomPath → Prop) :
    ∀ (rest : List (DomPath × Node)) (acc : List (List String × List DomPath × Nat)),
      (∀ g ∈ acc, ∀ q ∈ g.2.1, P q) → (∀ pn ∈ rest, P pn.1) →
      ∀ g ∈ buildGroups t tags rest acc, ∀ q ∈ g.2.1, P q := by
  intro rest
  induction rest with
  | nil =>
    intro acc hacc _ g hg
    simp only [buildGroups] at hg
    exact hacc g hg
  | cons pn rest' ih =>
    intro acc hacc hrest g hg
    simp only [buildGroups] at hg
    by_cases hskip : skipCheckGo tags pn.2.children = true
    · rw [if_pos hskip] at hg
      exact ih acc hacc (fun x hx => hrest x (List.mem_cons_of_mem _ hx)) g hg
    · rw [if_neg hskip] at hg
      exact ih _ (mem_addGroup P _ _ _ acc hacc (hrest pn (by simp)))
        (fun x hx => hrest x (List.mem_cons_of_mem _ hx)) g hg

theorem ldFiltered_subset (t : Node) (tags0 : List (DomPath × Node)) :
    ∀ pn ∈ ldFiltered t tags0, pn ∈ tags0 := by
  intro pn h
  rw [ldFiltered] at h
  split at h
  · exact (List.mem_filter.mp h).1
  · exact h

theorem setTopTagGo_above (t : Node) (bp : DomPath) :
    ∀ (ls : List (List String)) (tp : DomPath),
      setTopTagGo t bp ls = .ok (some tp) → bp <+: tp := by
  intro ls
  induction ls with
  | nil =>
    intro tp h
    simp only [setTopTagGo] at h
    have hp : some bp = some tp := by injection h
    cases hp
    exact List.prefix_refl _
  | cons choices rest ih =>
    intro tp h
    simp only [setTopTagGo] at h
    rcases hf : findAllNames t bp choices with _ | ⟨tg, tgs⟩
    · simp only [hf] at h
      exact ih tp h
    · simp only [hf] at h
      have hex : ∃ bn, nodeAt t bp = some bn := by
        rcases hb : nodeAt t bp with _ | bn
        · have hnil : findAllNames t bp choices = [] := by
            simp [findAllNames, hb]
          rw [hf] at hnil
          simp at hnil
        · exact ⟨bn, rfl⟩
      obtain ⟨bn, hv⟩ := hex
      rcases hgrp :
          buildGroups t (ldFiltered t (tg :: tgs)) (ldFiltered t (tg :: tgs)) [] with
        _ | ⟨g, gs⟩
      · simp only [hgrp] at h
        exact Except.noConfusion h
      · simp only [hgrp] at h
        refine gbca_above t bp bn hv _ ?_ tp h
        intro q hq
        have hgmem := pyMaxBy_mem (fun x => x.2.2) g gs
        rw [← hgrp] at hgmem
        refine mem_buildGroups t _ (fun q2 => ∃ s, q2 = bp ++ s ∧ s ≠ []) _ []
          ?_ ?_ _ hgmem q hq
        · intro g2 hg2
          simp at hg2
        · intro pn hpn
          refine mem_findAllNames_extends t bp choices pn ?_
          rw [hf]
          exact ldFiltered_subset t _ pn hpn

theorem data_mk (l : List Char) : (String.mk l).data = l := rfl

theorem startsHttp_of_http_pre (s : List Char) (u : String) :
    pyStartsWith (pyLower (String.mk ('h' :: 't' :: 't' :: 'p' :: s) ++ u)) "http" = true := by
  rw [pyStartsWith, List.isPrefixOf_iff_prefix]
  exact ⟨List.map Char.toLower (s ++ u.data), rfl⟩

theorem startsHttp_base (s : List Char) :
    pyStartsWith (pyLower (String.mk ('h' :: 't' :: 't' :: 'p' :: s))) "http" = true := by
  rw [pyStartsWith, List.isPrefixOf_iff_prefix]
  exact ⟨List.map Char.toLower s, rfl⟩

theorem splitSchemeGo_decomp (l : List Char) (h : splitSchemeGo l = true) :
    l = upToColon l ++ ':' :: afterColon l := by
  induction l with
  | nil => simp [splitSchemeGo] at h
  | cons c cs ih =>
    by_cases hc : (c == ':') = true
    · have hc' : c = ':' := by simpa using hc
      subst hc'
      simp [upToColon, afterColon]
    · simp only [splitSchemeGo] at h
      rw [if_neg hc] at h
      by_cases hs : isSchemeChar c = true
      · rw [if_pos hs] at h
        simp only [upToColon, afterColon]
        rw [if_neg hc, if_neg hc, List.cons_append]
        exact congrArg (List.cons c) (ih h)
      · rw [if_neg hs] at h
        exact absurd h (by simp)

theorem hasScheme_shape (c : Char) (cs : List Char)
    (h : (c.isAlpha && splitSchemeGo (c :: cs)) = true) :
    c :: cs = upToColon (c :: cs) ++ ':' :: afterColon (c :: cs) ∧
    upToColon (c :: cs) = c :: upToColon cs := by
  rw [Bool.and_eq_true] at h
  obtain ⟨ha, hsg⟩ := h
  have hc : ¬((c == ':') = true) := by
    intro hh
    have hc' : c = ':' := by simpa using hh
    subst hc'
    exact absurd ha (by decide)
  refine ⟨splitSchemeGo_decomp _ hsg, ?_⟩
  simp only [upToColon]
  rw [if_neg hc]

theorem lower_http_of_scheme (url : String) (h : hasScheme url = true)
    (hsch : urlScheme url = "http" ∨ urlScheme url = "https" ∨ urlScheme url = "") :
    pyStartsWith (pyLower url) "http" = true := by
  rcases hl : url.data with _ | ⟨c, cs⟩
  · simp [hasScheme, hl] at h
  · simp only [hasScheme, hl] at h
    obtain ⟨hdec, hcons⟩ := hasScheme_shape c cs h
    simp only [urlScheme, hl] at hsch
    rw [if_pos h] at hsch
    have hmap : (upToColon (c :: cs)).map Char.toLower = "http".data ∨
        (upToColon (c :: cs)).map Char.toLower = "https".data := by
      rcases hsch with h1 | h1 | h1
      · exact Or.inl (congrArg String.data h1)
      · exact Or.inr (congrArg String.data h1)
      · have hz : (upToColon (c :: cs)).map Char.toLower = [] :=
          congrArg String.data h1
        rw [hcons] at hz
        simp at hz
    rw [pyStartsWith, pyLower, hl, data_mk, List.isPrefixOf_iff_prefix]
    rw [show c :: cs = upToColon (c :: cs) ++ ':' :: afterColon (c :: cs) from hdec]
    rw [List.map_append]
    rcases hmap with hm | hm
    · rw [hm]
      exact List.prefix_append _ _
    · rw [hm]
      exact List.IsPrefix.trans (by decide) (List.prefix_append _ _)

theorem lower_http_not_hash (u : String) (h : pyStartsWith (pyLower u) "http" = true) :
    pyStartsWith u "#" = false := by
  rcases hl : u.data with _ | ⟨c, cs⟩
  · rw [pyStartsWith, pyLower, hl, data_mk] at h
    exact absurd h (by decide)
  · rw [pyStartsWith, pyLower, hl, data_mk, List.map] at h
    rw [show "http".data = 'h' :: "ttp".data from rfl] at h
    simp only [List.isPrefixOf] at h
    rw [Bool.and_eq_true] at h
    obtain ⟨hc, -⟩ := h
    rw [pyStartsWith, hl]
    rw [show "#".data = '#' :: ([] : List Char) from rfl]
    simp only [List.isPrefixOf]
    by_cases hcc : c = '#'
    · subst hcc
      exact absurd hc (by decide)
    · have hne : ('#' == c) = false := by
        simpa using fun he => hcc he.symm
      rw [hne]
      rfl

theorem urljoinCore_http (s rest : List Char) (url : String) :
    pyStartsWith (pyLower (urljoinCore ('h' :: 't' :: 't' :: 'p' :: s) rest url)) "http" =
      true := by
  unfold urljoinCore
  split
  · by_cases hs : pyStartsWith url "/" = true
    · rw [if_pos hs]
      exact startsHttp_of_http_pre _ _
    · rw [if_neg hs]
      exact startsHttp_of_http_pre _ _
  · by_cases hs : pyStartsWith url "/" = true
    · rw [if_pos hs]
      exact startsHttp_of_http_pre _ _
    · rw [if_neg hs]
      exact startsHttp_of_http_pre _ _

theorem urljoin_base_http (ex bt : List Char) (url : String)
    (hex : ex = [] ∨ ex = ['s'])
    (hsch : urlScheme url = "http" ∨ urlScheme url = "https" ∨ urlScheme url = "") :
    pyStartsWith (pyLower (urljoin
      (String.mk ('h' :: 't' :: 't' :: 'p' :: (ex ++ ':' :: '/' :: '/' :: bt))) url))
      "http" = true := by
  rcases hex with rfl | rfl <;>
  · simp only [List.cons_append, List.nil_append]
    unfold urljoin
    split_ifs with h1 h2 h3 h4 h5
    · exact absurd h1 (by simp [pyLen, data_mk])
    · exact startsHttp_base _
    · exact lower_http_of_scheme url h3 hsch
    · exact startsHttp_of_http_pre _ _
    · exact absurd rfl h5
    · exact urljoinCore_http _ _ _
    · exact absurd rfl (by assumption)

theorem validate_url_isSome (o : Option String) (h : validate_url o = true) :
    ∃ u, o = some u := by
  cases o with
  | none => simp [validate_url] at h
  | some u => exact ⟨u, rfl⟩

theorem extractPageUrlRest_spec (jsonLd ogp : List (String × String)) (soup : Node)
    (st : ExtState) :
    (∃ u m, (extractPageUrlRest jsonLd ogp soup st).1 = (some u, some m) ∧
      (extractPageUrlRest jsonLd ogp soup st).2 = { st with pageUrl := some u }) ∨
    ((extractPageUrlRest jsonLd ogp soup st).1 = (none, none) ∧
      (extractPageUrlRest jsonLd ogp soup st).2 = st) := by
  unfold extractPageUrlRest
  by_cases h1 : validate_url (dictGet ogp "og:url") = true
  · obtain ⟨u, hu⟩ := validate_url_isSome _ h1
    rw [if_pos h1, hu]
    exact Or.inl ⟨u, "ogp", rfl, rfl⟩
  · rw [if_neg h1]
    rcases ha : alternateUrl (selectAll soup [] [alternateSel]) with _ | u
    · simp only [ha]
      by_cases h2 : validate_url (dictGet jsonLd "url") = true
      · obtain ⟨u, hu⟩ := validate_url_isSome _ h2
        rw [if_pos h2, hu]
        exact Or.inl ⟨u, "json_ld", rfl, rfl⟩
      · rw [if_neg h2]
        exact Or.inr ⟨rfl, rfl⟩
    · simp only [ha]
      exact Or.inl ⟨u, "alternate", rfl, rfl⟩

theorem extract_page_url_spec (jsonLd ogp : List (String × String)) (soup : Node)
    (st : ExtState) :
    (∃ u m, (extract_page_url jsonLd ogp soup st).1 = (some u, some m) ∧
      (extract_page_url jsonLd ogp soup st).2 = { st with pageUrl := some u }) ∨
    ((extract_page_url jsonLd ogp soup st).1 = (none, none) ∧
      (extract_page_url jsonLd ogp soup st).2 = st) := by
  unfold extract_page_url
  rcases hc : selectAll soup [] [canonicalSel] with _ | ⟨c, cs⟩
  · simp only [hc]
    exact extractPageUrlRest_spec jsonLd ogp soup st
  · simp only [hc]
    rcases hcu : canonicalUrls (c :: cs) with _ | ⟨u, us⟩
    · simp only [hcu]
      exact extractPageUrlRest_spec jsonLd ogp soup st
    · simp only [hcu]
      exact Or.inl ⟨u, "canonical", rfl, rfl⟩

theorem tsStage_method (m : String) (l : Option String)
    (st : Option String × Option String) (h : st.1 = none → st.2 = none) :
    ((tsStage m l st).2 =
      if (tsStage m l st).1.isSome then some m else none) ∧
    ((tsStage m l st).1 = none → (tsStage m l st).2 = none) := by
  obtain ⟨v0, m0⟩ := st
  cases v0 <;> cases l <;> simp_all [tsStage]

theorem collectGraphItems_skip (pre post : List ScriptBlock) :
    collectGraphItems (pre ++ .malformed :: post) = collectGraphItems (pre ++ post) := by
  induction pre with
  | nil => simp [collectGraphItems]
  | cons b pre ih =>
    cases b with
    | noString => simp [collectGraphItems]
    | malformed => simpa [collectGraphItems] using ih
    | parsed j =>
      cases j <;> simp only [List.cons_append, collectGraphItems, List.append_eq] <;>
        rw [ih]

/-! ### Claim theorems -/

/-- C2: after the Cleaner's link-density pass, for every element `n` (in any
anchor context) the computed `link_chars(n)` never exceeds `total_chars(n)`,
the computed `link_density(n)` lies in the interval `[0, 1]`, and every
element with `total_chars(n) = 0` has computed `link_density(n) = 0`. -/
theorem C2_link_density_in_unit_interval (n : Node) (inAnchor : Bool) :
    linkChars inAnchor n ≤ totalChars n ∧
    0 ≤ linkDensity inAnchor n ∧ linkDensity inAnchor n ≤ 1 ∧
    (totalChars n = 0 → linkDensity inAnchor n = 0) := by
  refine ⟨linkChars_le_totalChars n inAnchor, ?_, ?_, ?_⟩
  · unfold linkDensity
    split
    · positivity
    · exact le_refl 0
  · unfold linkDensity
    split
    · rename_i htc
      rw [div_le_one (by exact_mod_cast htc)]
      exact_mod_cast linkChars_le_totalChars n inAnchor
    · exact zero_le_one
  · intro h0
    unfold linkDensity
    simp [h0]

/-- C9 (amended): on a cleaned document whose (first) body element has
nonzero `total_chars`, `set_base_tag` succeeds and sets a base tag — the
failure branch raising `ValueError` is unreachable because the final
selector `body` always yields an accepted candidate.  (A cleaned document
whose body has zero `total_chars` — possible only when the body retains
media elements and no text — instead raises `ZeroDivisionError` at the
first nonempty selection; see the counterexample.) -/
theorem C9_set_base_tag_succeeds (t : Node) (bp : DomPath) (bn : Node)
    (hb : firstBody t = some (bp, bn)) :
    setBaseTag t ≠ .error .valueError ∧
    (0 < totalChars bn → ∃ p, setBaseTag t = .ok p) := by
  have hbody : setBaseTag t = setBaseTagGo t (totalChars bn) BASE_TAG_SELECTORS := by
    unfold setBaseTag; rw [hb]
  have hsplit : BASE_TAG_SELECTORS =
      BASE_TAG_SELECTORS.dropLast ++ [[bareSel "body"]] := by rfl
  by_cases h0 : totalChars bn = 0
  · constructor
    · rw [hbody, h0, hsplit, setBaseTagGo_append]
      rcases setBaseTagGo_zero t BASE_TAG_SELECTORS.dropLast with he | he <;> rw [he]
      · have hsel := body_in_selectAll t bp bn hb
        rcases hcase : selectAll t [] [bareSel "body"] with _ | ⟨c, cs⟩
        · rw [hcase] at hsel; exact absurd hsel (by simp)
        · simp [setBaseTagGo, hcase]
      · simp
    · intro htc; omega
  · have hok : ∃ p, setBaseTag t = .ok p := by
      rw [hbody, hsplit, setBaseTagGo_append]
      rcases hgo : setBaseTagGo t (totalChars bn) BASE_TAG_SELECTORS.dropLast with e | p
      · have he := setBaseTagGo_error_is_valueError t (totalChars bn) h0 _ e hgo
        subst he
        obtain ⟨p, hp⟩ := setBaseTagGo_bodyGroup t bp bn hb (Nat.pos_of_ne_zero h0)
        exact ⟨p, by simp [hp]⟩
      · exact ⟨p, by simp⟩
    obtain ⟨p, hp⟩ := hok
    exact ⟨by simp [hp], fun _ => ⟨p, hp⟩⟩

/-- C6 (amended): `decompose_header_footer` examines only the
breadth-first-first header-or-footer elements: every decomposed element is a
header or footer with no ancestor named article, aside, nav or section; at
most one header and at most one footer are decomposed; when the document has
no header or footer nothing is decomposed; and when the breadth-first-first
header-or-footer element is a header (footer), it is decomposed exactly when
it has no sectioning ancestor — in particular, when it has one, no header
(footer) at all is decomposed, even if a later header (footer) lacks
sectioning ancestors. -/
theorem C6_decompose_header_footer (t : Node) :
    (∀ p ∈ decomposeHeaderFooterPaths t,
        (nameAtIs t p "header" = true ∨ nameAtIs t p "footer" = true) ∧
        sectioningFree (ancestorNames t p) = true) ∧
    ((decomposeHeaderFooterPaths t).filter (fun p => nameAtIs t p "header")).length ≤ 1 ∧
    ((decomposeHeaderFooterPaths t).filter (fun p => nameAtIs t p "footer")).length ≤ 1 ∧
    (firstHeaderFooter t = none → decomposeHeaderFooterPaths t = []) ∧
    (∀ p anc, firstHeaderFooter t = some (p, anc, "header") →
      (sectioningFree anc = true → p ∈ decomposeHeaderFooterPaths t) ∧
      (sectioningFree anc = false →
        ∀ q ∈ decomposeHeaderFooterPaths t, nameAtIs t q "header" = false)) ∧
    (∀ p anc, firstHeaderFooter t = some (p, anc, "footer") →
      (sectioningFree anc = true → p ∈ decomposeHeaderFooterPaths t) ∧
      (sectioningFree anc = false →
        ∀ q ∈ decomposeHeaderFooterPaths t, nameAtIs t q "footer" = false)) := by
  have hWF : queueWF t [([], [], t)] := by
    intro e he
    simp only [List.mem_singleton] at he
    subst he
    exact ⟨rfl, rfl⟩
  refine ⟨?_, ?_, ?_, ?_, ?_, ?_⟩
  · intro p hp
    rcases hfLoop_added t (Node.size t + 1) [([], [], t)] false false [] hWF p hp with
      hmem | ⟨_, hh, hs⟩ | ⟨_, hh, hs⟩
    · cases hmem
    · exact ⟨Or.inl hh, hs⟩
    · exact ⟨Or.inr hh, hs⟩
  · have h := hfLoop_countH t (Node.size t + 1) [([], [], t)] false false [] hWF
    simpa using h
  · have h := hfLoop_countF t (Node.size t + 1) [([], [], t)] false false [] hWF
    simpa using h
  · intro hnone
    exact hfLoop_none (Node.size t + 1) [([], [], t)] false false [] hnone
  · intro p anc hhit
    constructor
    · intro hsec
      exact hfLoop_hit_header_free (Node.size t + 1) [([], [], t)] [] p anc hhit hsec
    · intro hsec q hq
      rcases hfLoop_hit_header_kept t (Node.size t + 1) [([], [], t)] [] p anc hWF
          hhit hsec q hq with hmem | hfalse
      · cases hmem
      · exact hfalse
  · intro p anc hhit
    constructor
    · intro hsec
      exact hfLoop_hit_footer_free (Node.size t + 1) [([], [], t)] [] p anc hhit hsec
    · intro hsec q hq
      rcases hfLoop_hit_footer_kept t (Node.size t + 1) [([], [], t)] [] p anc hWF
          hhit hsec q hq with hmem | hfalse
      · cases hmem
      · exact hfalse

/-- A document whose breadth-first-first header sits inside an `<article>`
while a deeper header has no sectioning ancestor. -/
def hfCounterDoc : Node :=
  Node.elem "[document]" []
    [Node.elem "html" []
      [Node.elem "body" []
        [Node.elem "article" [] [Node.elem "header" [] [Node.text "inside"]],
         Node.elem "div" []
           [Node.elem "div" [] [Node.elem "header" [] [Node.text "outside"]]]]]]

/-- C6 counterexample: in `hfCounterDoc` the header at path `[0,0,1,0,0]`
has no ancestor among the sectioning tags, yet `decompose_header_footer`
removes nothing — the breadth-first search stops at the first header (inside
`<article>`), so "whenever some header without a sectioning ancestor exists,
one is removed" is false of the code. -/
theorem C6_counterexample :
    nameAtIs hfCounterDoc [0, 0, 1, 0, 0] "header" = true ∧
    sectioningFree (ancestorNames hfCounterDoc [0, 0, 1, 0, 0]) = true ∧
    decomposeHeaderFooterPaths hfCounterDoc = [] ∧
    decomposeHeaderFooter hfCounterDoc = hfCounterDoc := by
  refine ⟨by decide, by decide, by decide, by decide⟩

/-- A document whose breadth-first-first header has no sectioning ancestor. -/
def hfWitnessDoc : Node :=
  Node.elem "[document]" []
    [Node.elem "html" []
      [Node.elem "body" []
        [Node.elem "header" [] [Node.text "top"],
         Node.elem "p" [] [Node.text "content"]]]]

/-- Witness for C6: on `hfWitnessDoc` the breadth-first-first header is
decomposed. -/
theorem C6_decompose_header_footer_witness :
    [0, 0, 0] ∈ decomposeHeaderFooterPaths hfWitnessDoc :=
  ((C6_decompose_header_footer hfWitnessDoc).2.2.2.2.1 [0, 0, 0]
    ["[document]", "html", "body"] (by decide)).1 (by decide)

/-- C7 (amended): of the Cleaner's tree-mutation passes, `decompose_tags`,
`decompose_comments`, `unwrap_tags` and `replace_breaks` (whenever it
returns) are idempotent; `decompose_header_footer`, `clear_invisible` and
`remove_whitespace` are not (see the counterexample). -/
theorem C7_cleaner_pass_idempotence :
    (∀ (names : List String) (t : Node),
        decomposeTags names (decomposeTags names t) = decomposeTags names t) ∧
    (∀ t : Node, decomposeComments (decomposeComments t) = decomposeComments t) ∧
    (∀ (names : List String) (t : Node),
        unwrapTags names (unwrapTags names t) = unwrapTags names t) ∧
    (∀ t u : Node, replaceBreaks t = .ok u → replaceBreaks u = .ok u) :=
  ⟨fun names t => decomposeTags_idem names t,
   fun t => decomposeComments_idem t,
   fun names t => unwrapTags_idem names t,
   fun t u h => replaceBreaks_idem t u h⟩

/-- A document with two sectioning-free headers. -/
def hfTwiceDoc : Node :=
  Node.elem "[document]" []
    [Node.elem "html" []
      [Node.elem "body" []
        [Node.elem "header" [] [Node.text "one"],
         Node.elem "header" [] [Node.text "two"]]]]

/-- An invisible element (`hidden` attribute present). -/
def hiddenDiv : Node :=
  Node.elem "div" [("hidden", "")] [Node.text "z"]

/-- A document with two adjacent whitespace-only strings. -/
def wsTwiceDoc : Node :=
  Node.elem "[document]" []
    [Node.elem "p" [] [Node.text " ", Node.text " ", Node.text "x"]]

/-- C7 counterexample: three of the passes are not idempotent.
`decompose_header_footer` removes only the first header per run, so a second
run removes a second header; `clear_invisible` and `remove_whitespace`
remove nodes while iterating over the live child list, skipping the sibling
right after each removal, so a second run removes the skipped node. -/
theorem C7_counterexample :
    decomposeHeaderFooter (decomposeHeaderFooter hfTwiceDoc) ≠
      decomposeHeaderFooter hfTwiceDoc ∧
    (clearInvisList [hiddenDiv, hiddenDiv] = .ok [hiddenDiv] ∧
      clearInvisList [hiddenDiv] = .ok [] ∧ ([hiddenDiv] : List Node) ≠ []) ∧
    removeWhitespace (removeWhitespace wsTwiceDoc) ≠ removeWhitespace wsTwiceDoc := by
  refine ⟨by decide, ⟨rfl, rfl, by decide⟩, by decide⟩

/-- Witness for C7: the idempotence conjuncts applied at concrete trees,
with the `replace_breaks` success hypothesis discharged on a document whose
`<br>` splits its parent paragraph. -/
theorem C7_cleaner_pass_idempotence_witness :
    decomposeTags ["style"] (decomposeTags ["style"]
        (Node.elem "body" [] [Node.elem "style" [] [Node.text "x"]])) =
      decomposeTags ["style"] (Node.elem "body" [] [Node.elem "style" [] [Node.text "x"]]) ∧
    replaceBreaks
        (Node.elem "[document]" []
          [Node.elem "p" [] [Node.text "a"], Node.elem "p" [] [Node.text "b"]]) =
      .ok (Node.elem "[document]" []
        [Node.elem "p" [] [Node.text "a"], Node.elem "p" [] [Node.text "b"]]) :=
  ⟨C7_cleaner_pass_idempotence.1 ["style"]
      (Node.elem "body" [] [Node.elem "style" [] [Node.text "x"]]),
   C7_cleaner_pass_idempotence.2.2.2
      (Node.elem "[document]" []
        [Node.elem "p" []
          [Node.text "a", Node.elem "br" [] [], Node.text "b"]])
      (Node.elem "[document]" []
        [Node.elem "p" [] [Node.text "a"], Node.elem "p" [] [Node.text "b"]])
      (by rfl)⟩

/-- A cleaned document whose body holds only an image: zero `total_chars`,
but the body survives `_decompose_empty` because of its media descendant. -/
def mediaOnlyBodyDoc : Node :=
  Node.elem "[document]" []
    [Node.elem "html" []
      [Node.elem "body" [] [Node.elem "img" [("src", "a.jpg")] []]]]

/-- C9 counterexample: `mediaOnlyBodyDoc` is a cleaned document (a fixed
point of the default cleaning pipeline) containing a body element, yet
`set_base_tag` does not succeed: the acceptance test
`largest_choice_tc / tc` divides by the body's zero `_ld_tc` and raises
`ZeroDivisionError` at the first nonempty selection. -/
theorem C9_counterexample :
    clean mediaOnlyBodyDoc = .ok mediaOnlyBodyDoc ∧
    setBaseTag mediaOnlyBodyDoc = .error .zeroDivisionError :=
  ⟨rfl, rfl⟩

/-- Witness for C9 on a document with a text-bearing body. -/
theorem C9_set_base_tag_succeeds_witness :
    firstBody
        (Node.elem "[document]" []
          [Node.elem "html" []
            [Node.elem "body" [] [Node.text "hello world"]]]) =
      some ([0, 0], Node.elem "body" [] [Node.text "hello world"]) ∧
    (setBaseTag
        (Node.elem "[document]" []
          [Node.elem "html" []
            [Node.elem "body" [] [Node.text "hello world"]]]) ≠
        .error .valueError ∧
      (0 < totalChars (Node.elem "body" [] [Node.text "hello world"]) →
        ∃ p, setBaseTag
          (Node.elem "[document]" []
            [Node.elem "html" []
              [Node.elem "body" [] [Node.text "hello world"]]]) = .ok p)) :=
  ⟨rfl, C9_set_base_tag_succeeds _ _ _ rfl⟩

/-- Witness for C2 at a concrete zero-character element. -/
theorem C2_link_density_in_unit_interval_witness :
    totalChars (Node.elem "div" [] [Node.elem "a" [] []]) = 0 ∧
    linkDensity false (Node.elem "div" [] [Node.elem "a" [] []]) = 0 :=
  ⟨rfl, (C2_link_density_in_unit_interval (Node.elem "div" [] [Node.elem "a" [] []])
    false).2.2.2 rfl⟩

/-- C8: `extract_json_ld` does skip a block whose string fails to parse as
JSON (`json.JSONDecodeError` is caught), as the first conjunct shows.  But
error handling is not the claimed blanket robustness: a block that parses
fine but reads `\x7b"@graph": []\x7d` — well-formed JSON with `@graph` and
no `@context` — crashes the whole extraction with an uncaught `KeyError`,
and a `<script type="application/ld+json">` element with no string child
crashes with `TypeError` inside `json.loads(None)`, which the
`JSONDecodeError` handler does not catch. -/
theorem C8_json_ld_error_handling :
    (∀ (pre post : List ScriptBlock),
        extract_json_ld (pre ++ ScriptBlock.malformed :: post) =
          extract_json_ld (pre ++ post)) ∧
    extract_json_ld [ScriptBlock.parsed (Json.obj [("@graph", Json.arr [])])] =
      .error .keyError ∧
    extract_json_ld [ScriptBlock.noString] = .error .typeError := by
  refine ⟨fun pre post => ?_, rfl, rfl⟩
  unfold extract_json_ld extract_json_ld_dictlist
  rw [collectGraphItems_skip]

/-- C4: the provenance tag does not name the method that supplied the
value.  Each stage's `if <value> is not None: <method> = "..."` assignment
in `extract_timestamps` runs unconditionally, so the reported method is
`"meta"` whenever any stage found a timestamp (and `None` otherwise) — in
particular a published timestamp supplied by the JSON-LD `datePublished`
field, the first source of the priority chain, is reported with method
`"meta"`, not `"json_ld"`, as the concrete run in the last conjunct shows. -/
theorem C4_timestamp_provenance :
    (∀ (jsonLd ogp : List (String × String)) (soup : Node),
      ((extract_timestamps jsonLd ogp soup).publishedMethod =
        if ((extract_timestamps jsonLd ogp soup).published).isSome
        then some "meta" else none) ∧
      ((extract_timestamps jsonLd ogp soup).modifiedMethod =
        if ((extract_timestamps jsonLd ogp soup).modified).isSome
        then some "meta" else none)) ∧
    extract_timestamps [("datePublished", "2020-12-01T10:00:00")] []
        (Node.elem "html" [] []) =
      ⟨some "2020-12-01T10:00:00", none, some "meta", none⟩ := by
  refine ⟨fun jsonLd ogp soup => ⟨?_, ?_⟩, rfl⟩
  · exact (tsStage_method _ _ _
      (tsStage_method _ _ _
        (tsStage_method _ _ _
          (tsStage_method _ _ _
            (tsStage_method _ _ _ (fun _ => rfl)).2).2).2).2).1
  · exact (tsStage_method _ _ _
      (tsStage_method _ _ _
        (tsStage_method _ _ _
          (tsStage_method _ _ _ (fun _ => rfl)).2).2).2).1

/-- A document whose only title source is
`<title>Big Story - My News Site</title>`: no metadata titles, no
itemprop-headline element, no `<h1>`. -/
def bigStoryDoc : Node :=
  Node.elem "[document]" []
    [Node.elem "html" []
      [Node.elem "head" []
        [Node.elem "title" [] [Node.text "Big Story - My News Site"]],
       Node.elem "body" [] [Node.elem "p" [] [Node.text "hello"]]]]

/-- On the claim's document, `extract_title` with `clean=True` splits the
`<title>` text into `"Big Story"` (9 chars) and `"My News Site"` (12
chars) and `max(matchlist, key=len)` keeps the LONGEST segment, which is
the site name, not `"Big Story"`. -/
theorem C5_counterexample :
    extract_title [] [] none bigStoryDoc true =
      .ok (some "My News Site", some "title_cleaned") ∧
    splitTitle "Big Story - My News Site" = ["Big Story", "My News Site"] ∧
    some "My News Site" ≠ some "Big Story" :=
  ⟨rfl, rfl, by decide⟩

/-- C5 (amended): for a document with no JSON-LD `headline`/`name`, no OGP
`og:title`, no itemprop-headline element and no `<h1>`, whose `<title>`
string is `"Big Story - My News Site"`, `extract_title` with `clean=True`
returns `"My News Site"` — the longest segment of the whitespace-delimited
`-`/`|` split — with method `"title_cleaned"`. -/
theorem C5_title_longest_segment (jsonLd ogp : List (String × String))
    (pageUrl : Option String) (soup : Node) (tp : DomPath) (tt : Node)
    (hj1 : dictGet jsonLd "headline" = none)
    (hj2 : dictGet jsonLd "name" = none)
    (hog : dictGet ogp "og:title" = none)
    (hip : itempropHeadlineTags soup = [])
    (hh1 : findAllNames soup [] ["h1"] = [])
    (htt : titleTagOf soup = some (tp, tt))
    (hstr : nodeString tt = some "Big Story - My News Site") :
    extract_title jsonLd ogp pageUrl soup true =
      .ok (some "My News Site", some "title_cleaned") := by
  simp only [extract_title, hj1, hj2, hog, hip, hh1, htt, hstr, itempropTitleLoop,
    h1Title]
  rfl

/-- Witness for C5 on `bigStoryDoc`, discharging every hypothesis by
evaluation. -/
theorem C5_title_longest_segment_witness :
    extract_title [] [] none bigStoryDoc true =
      .ok (some "My News Site", some "title_cleaned") :=
  C5_title_longest_segment [] [] none bigStoryDoc [0, 0, 0]
    (Node.elem "title" [] [Node.text "Big Story - My News Site"])
    rfl rfl rfl rfl rfl rfl rfl

/-- A document whose `<article>` (with most of the text) is a sibling of
`<body>` rather than inside it, as lenient parsing of malformed HTML can
leave it. -/
def strayArticleDoc : Node :=
  Node.elem "[document]" []
    [Node.elem "html" []
      [Node.elem "body" [] [Node.elem "p" [] [Node.text "hi"]],
       Node.elem "article" []
         [Node.elem "p" [] [Node.text "a much longer article text body"]]]]

/-- `BASE_TAG_SELECTORS` are queried against the whole soup, not the body:
on `strayArticleDoc` the bare `article` selector picks the article at path
`[0, 1]`, which is not the body (`[0, 0]`) nor a descendant of it. -/
theorem C1_counterexample :
    setBaseTag strayArticleDoc = .ok [0, 1] ∧
    firstBody strayArticleDoc =
      some ([0, 0], Node.elem "body" [] [Node.elem "p" [] [Node.text "hi"]]) ∧
    ¬([0, 0] <+: [0, 1]) :=
  ⟨rfl, rfl, by decide⟩

/-- A cleaned document whose only `<p>` sits inside the body, used to run
`set_top_tag` concretely. -/
def topDoc : Node :=
  Node.elem "[document]" []
    [Node.elem "html" []
      [Node.elem "body" []
        [Node.elem "div" [] [Node.elem "p" [] [Node.text "hello world"]]]]]

/-- C1 (amended): whenever `set_top_tag` completes normally having set a
top tag, that tag is the base tag or one of its descendants — the
candidate `<p>`-like tags are found inside the base tag, the lowest common
ancestor walk stops no later than the base tag, and the best-ancestor
descent only moves to children.  (The claim's second half fails: the base
tag need not be under the body, see the counterexample.) -/
theorem C1_top_tag_within_base (t : Node) (bp tp : DomPath)
    (h : setTopTag t bp = .ok (some tp)) : bp <+: tp :=
  setTopTagGo_above t bp TAGS_TO_CHECK_LISTS tp h

/-- Witness for C1: on `topDoc` with the body as base tag, `set_top_tag`
picks the `<p>` at `[0, 0, 0, 0]`, a descendant of the base `[0, 0]`. -/
theorem C1_top_tag_within_base_witness :
    setTopTag topDoc [0, 0] = .ok (some [0, 0, 0, 0]) ∧
      [0, 0] <+: [0, 0, 0, 0] :=
  ⟨rfl, C1_top_tag_within_base topDoc [0, 0] [0, 0, 0, 0] rfl⟩

/-- With `self.page_url = None`, `_process_link_list` emits a relative URL
unchanged: nothing is ever validated (`validate_url` is never called), and
`urljoin(None, href)` returns `href` as-is.  (The `#`-dropping part of the
claim does hold.) -/
theorem C3_counterexample :
    processLinkList none [⟨some "foo/bar", some "x"⟩] =
      [⟨some "foo/bar", some "x"⟩] ∧
    validate_url (some "foo/bar") = false ∧
    pyStartsWith "foo/bar" "#" = false :=
  ⟨rfl, rfl, rfl⟩

/-- C3 (amended): `_process_link_list` performs no URL validation, but when
`self.page_url` is an absolute http(s) URL (as `extract_page_url`
guarantees when it sets one), every emitted `url` value is present,
case-insensitively starts with `"http"` (being either kept with its own
http(s) scheme or joined onto the page URL), and never starts with `#`. -/
theorem C3_processed_link_urls (pageUrl : String) (links : List LinkItem)
    (hval : pyStartsWith pageUrl "http://" = true ∨
      pyStartsWith pageUrl "https://" = true) :
    ∀ li ∈ processLinkList (some pageUrl) links, ∃ u,
      li.url = some u ∧ pyStartsWith (pyLower u) "http" = true ∧
      pyStartsWith u "#" = false := by
  have hjoin : ∀ url : String,
      (urlScheme url = "http" ∨ urlScheme url = "https" ∨ urlScheme url = "") →
      pyStartsWith (pyLower (urljoin pageUrl url)) "http" = true := by
    intro url hsch
    rcases hval with hv | hv
    · rw [pyStartsWith, List.isPrefixOf_iff_prefix] at hv
      obtain ⟨t, ht⟩ := hv
      obtain ⟨pl⟩ := pageUrl
      rw [data_mk] at ht
      subst ht
      exact urljoin_base_http [] t url (Or.inl rfl) hsch
    · rw [pyStartsWith, List.isPrefixOf_iff_prefix] at hv
      obtain ⟨t, ht⟩ := hv
      obtain ⟨pl⟩ := pageUrl
      rw [data_mk] at ht
      subst ht
      exact urljoin_base_http ['s'] t url (Or.inr rfl) hsch
  induction links with
  | nil =>
    intro li hli
    simp [processLinkList] at hli
  | cons l0 rest ih =>
    intro li hli
    rcases hu : l0.url with _ | h0
    · simp only [processLinkList, hu] at hli
      exact ih li hli
    · simp only [processLinkList, hu] at hli
      by_cases he : (h0 == "") = true
      · rw [if_pos he] at hli
        exact ih li hli
      · rw [if_neg he] at hli
        by_cases hh : pyStartsWith (pyStrip h0) "#" = true
        · rw [if_pos hh] at hli
          exact ih li hli
        · rw [if_neg hh] at hli
          by_cases hneg :
              (!(URL_SCHEMES.any (fun s => urlScheme (pyStrip h0) == s))) = true
          · rw [if_pos hneg] at hli
            exact ih li hli
          · rw [if_neg hneg] at hli
            have hany :
                URL_SCHEMES.any (fun s => urlScheme (pyStrip h0) == s) = true := by
              simpa using hneg
            rcases List.mem_cons.mp hli with hEq | hMem
            · have hsch : urlScheme (pyStrip h0) = "http" ∨
                  urlScheme (pyStrip h0) = "https" ∨ urlScheme (pyStrip h0) = "" := by
                rw [List.any_eq_true] at hany
                obtain ⟨s, hsmem, hbeq⟩ := hany
                have hseq : urlScheme (pyStrip h0) = s := by simpa using hbeq
                simp only [URL_SCHEMES, List.mem_cons, List.not_mem_nil,
                  or_false] at hsmem
                rcases hsmem with rfl | rfl | rfl
                · exact Or.inl hseq
                · exact Or.inr (Or.inl hseq)
                · exact Or.inr (Or.inr hseq)
              have hhttp := hjoin (pyStrip h0) hsch
              subst hEq
              exact ⟨urljoin pageUrl (pyStrip h0), rfl, hhttp,
                lower_http_not_hash _ hhttp⟩
            · exact ih li hMem

/-- Witness for C3: a relative link joined onto a validated page URL. -/
theorem C3_processed_link_urls_witness :
    ∃ u, (LinkItem.mk (some "http://example.com/dir/sub/x") none).url = some u ∧
      pyStartsWith (pyLower u) "http" = true ∧ pyStartsWith u "#" = false :=
  C3_processed_link_urls "http://example.com/dir/page" [⟨some "sub/x", none⟩]
    (Or.inl rfl) ⟨some "http://example.com/dir/sub/x", none⟩ (by decide)

/-- C10: field extraction caches state exactly as claimed.  In order: (i)
whenever `extract_page_url` returns a URL it has assigned it to
`self.page_url`, and when it finds none the state is untouched; (ii) an
already-set `page_url` suppresses the recomputation (the shared prelude is
the identity); (iii) `extract_description`, `extract_language`,
`extract_keywords`, `extract_timestamps` and `extract_title` are exactly
that prelude on state — so the first one run fixes the page URL for all
later extractions (the prelude is idempotent) — and never touch
`base_tag`/`top_tag`; (iv) `extract_authors` with all three fields set
changes nothing; (v) on any successful `extract_authors` run a set (truthy)
`base_tag` survives and the page URL is the prelude's. -/
theorem C10_state_caching :
    (∀ (jsonLd ogp : List (String × String)) (soup : Node) (st : ExtState)
        (u : String) (m : Option String),
        (extract_page_url jsonLd ogp soup st).1 = (some u, m) →
        (extract_page_url jsonLd ogp soup st).2 = { st with pageUrl := some u }) ∧
    (∀ (jsonLd ogp : List (String × String)) (soup : Node) (st : ExtState),
        (extract_page_url jsonLd ogp soup st).1.1 = none →
        (extract_page_url jsonLd ogp soup st).2 = st) ∧
    (∀ (jsonLd ogp : List (String × String)) (soup : Node) (st : ExtState)
        (u : String), st.pageUrl = some u →
        ensurePageUrl jsonLd ogp soup st = st) ∧
    (∀ (jsonLd ogp : List (String × String)) (soup : Node) (st : ExtState),
        extract_description_state jsonLd ogp soup st =
          ensurePageUrl jsonLd ogp soup st ∧
        extract_language_state jsonLd ogp soup st =
          ensurePageUrl jsonLd ogp soup st ∧
        extract_keywords_state jsonLd ogp soup st =
          ensurePageUrl jsonLd ogp soup st ∧
        extract_timestamps_state jsonLd ogp soup st =
          ensurePageUrl jsonLd ogp soup st ∧
        extract_title_state jsonLd ogp soup st =
          ensurePageUrl jsonLd ogp soup st ∧
        ensurePageUrl jsonLd ogp soup (ensurePageUrl jsonLd ogp soup st) =
          ensurePageUrl jsonLd ogp soup st ∧
        (ensurePageUrl jsonLd ogp soup st).baseTag = st.baseTag ∧
        (ensurePageUrl jsonLd ogp soup st).topTag = st.topTag) ∧
    (∀ (jsonLd ogp : List (String × String)) (soup : Node) (st : ExtState)
        (u : String) (bp tp : DomPath),
        st.pageUrl = some u → st.baseTag = some bp → st.topTag = some tp →
        extract_authors_state jsonLd ogp soup st = .ok st) ∧
    (∀ (jsonLd ogp : List (String × String)) (soup : Node) (st st' : ExtState)
        (bp : DomPath),
        st.baseTag = some bp → tagTruthy soup bp = true →
        extract_authors_state jsonLd ogp soup st = .ok st' →
        st'.baseTag = some bp ∧
        st'.pageUrl = (ensurePageUrl jsonLd ogp soup st).pageUrl) := by
  refine ⟨?_, ?_, ?_, ?_, ?_, ?_⟩
  · intro jsonLd ogp soup st u m h
    rcases extract_page_url_spec jsonLd ogp soup st with ⟨u', m', h1, h2⟩ | ⟨h1, h2⟩
    · have hp := h.symm.trans h1
      injection hp with ha hb
      injection ha with ha'
      rw [h2, ha']
    · have hp := h.symm.trans h1
      injection hp with ha hb
      exact absurd ha (by simp)
  · intro jsonLd ogp soup st h
    rcases extract_page_url_spec jsonLd ogp soup st with ⟨u', m', h1, h2⟩ | ⟨h1, h2⟩
    · rw [h1] at h
      exact absurd h (by simp)
    · exact h2
  · intro jsonLd ogp soup st u h
    simp [ensurePageUrl, h]
  · intro jsonLd ogp soup st
    refine ⟨rfl, rfl, rfl, rfl, rfl, ?_, ?_, ?_⟩
    · rcases hp : st.pageUrl with _ | u
      · rcases extract_page_url_spec jsonLd ogp soup st with ⟨u', m', h1, h2⟩ | ⟨h1, h2⟩
        · simp [ensurePageUrl, hp, h2]
        · simp [ensurePageUrl, hp, h2]
      · simp [ensurePageUrl, hp]
    · rcases hp : st.pageUrl with _ | u
      · rcases extract_page_url_spec jsonLd ogp soup st with ⟨u', m', h1, h2⟩ | ⟨h1, h2⟩ <;>
          simp [ensurePageUrl, hp, h2]
      · simp [ensurePageUrl, hp]
    · rcases hp : st.pageUrl with _ | u
      · rcases extract_page_url_spec jsonLd ogp soup st with ⟨u', m', h1, h2⟩ | ⟨h1, h2⟩ <;>
          simp [ensurePageUrl, hp, h2]
      · simp [ensurePageUrl, hp]
  · intro jsonLd ogp soup st u bp tp hpu hbt htt
    simp [extract_authors_state, ensurePageUrl, hpu, hbt, htt]
  · intro jsonLd ogp soup st st' bp hbt htr hok
    have hbase1 : (ensurePageUrl jsonLd ogp soup st).baseTag = some bp := by
      rcases hp : st.pageUrl with _ | u
      · rcases extract_page_url_spec jsonLd ogp soup st with ⟨u', m', h1, h2⟩ | ⟨h1, h2⟩ <;>
          simp [ensurePageUrl, hp, h2, hbt]
      · simp [ensurePageUrl, hp, hbt]
    rw [extract_authors_state] at hok
    simp only [hbase1] at hok
    rcases htt : (ensurePageUrl jsonLd ogp soup st).topTag with _ | tp
    · simp only [htt] at hok
      rw [set_top_tag_state] at hok
      simp only [hbase1] at hok
      rw [if_pos htr] at hok
      rcases hst : setTopTag soup bp with e | tp2
      · simp only [hst] at hok
        exact Except.noConfusion hok
      · simp only [hst] at hok
        injection hok with h'
        rw [← h']
        exact ⟨rfl, rfl⟩
    · simp only [htt] at hok
      injection hok with h'
      rw [← h']
      exact ⟨hbase1, rfl⟩

/-- Witness for C10: with all three fields already set, `extract_authors`
leaves the state exactly as it was. -/
theorem C10_state_caching_witness :
    extract_authors_state [] [] (Node.elem "[document]" [] [Node.elem "html" [] []])
        ⟨some "http://a/", some [0], some [0]⟩ =
      .ok ⟨some "http://a/", some [0], some [0]⟩ :=
  C10_state_caching.2.2.2.2.1 [] []
    (Node.elem "[document]" [] [Node.elem "html" [] []])
    ⟨some "http://a/", some [0], some [0]⟩ "http://a/" [0] [0] rfl rfl rfl

end ArticleParser
